import Mathlib

/-!
Verification of the text layout engine in `src/wrap.rs` (word wrapping and
line truncation of styled graphemes).

Modelling conventions:
* `StyledGrapheme` carries its textual content (`symbol : String`) and an
  opaque style payload of an arbitrary type `σ`; the engine never inspects
  the style, so all definitions are polymorphic in `σ`.
* Display widths: `unicode_width::UnicodeWidthStr::width` computes the width
  of a string as the sum of the widths of its chars.  The per-char width
  table is abstracted as a parameter `cw : Char → Nat`; `stringWidth cw`
  is the induced string width.  All machine integers involved (`u16` widths)
  are modelled as `Nat`; the source uses `u16::saturating_sub` for the one
  subtraction that could underflow, which is `Nat` subtraction.
* `unicode_segmentation::UnicodeSegmentation::graphemes` (used only by
  `trim_offset`) is abstracted as a parameter `seg : String → List String`;
  `trim_offset` drops the chars of the consumed leading clusters, mirroring
  the byte-offset slice `&src[start..]` of the source.
* Rust `char::is_whitespace` is the Unicode `White_Space` property, encoded
  concretely in `rustCharWhitespace`.
-/

namespace Wrap

/-- `ratatui::layout::Alignment`. -/
inductive Alignment where
  | left
  | center
  | right
deriving DecidableEq, Repr

/-- `ratatui::text::StyledGrapheme`: one grapheme cluster with its textual
content and an opaque style payload. -/
structure StyledGrapheme (σ : Type) where
  symbol : String
  style : σ
deriving DecidableEq, Repr

/-- `const NBSP: &str = "\u{00a0}"` (non-breaking space). -/
def NBSP : String := "\u00A0"

/-- `const ZWSP: &str = "\u{200b}"` (zero-width space). -/
def ZWSP : String := "\u200B"

/-- Rust `char::is_whitespace`: the Unicode `White_Space` property
(U+0009..U+000D, U+0020, U+0085, U+00A0, U+1680, U+2000..U+200A,
U+2028, U+2029, U+202F, U+205F, U+3000). -/
def rustCharWhitespace (c : Char) : Bool :=
  let n := c.toNat
  (decide (0x09 ≤ n) && decide (n ≤ 0x0D)) || decide (n = 0x20) ||
    decide (n = 0x85) || decide (n = 0xA0) || decide (n = 0x1680) ||
    (decide (0x2000 ≤ n) && decide (n ≤ 0x200A)) || decide (n = 0x2028) ||
    decide (n = 0x2029) || decide (n = 0x202F) || decide (n = 0x205F) ||
    decide (n = 0x3000)

/-- `WordWrapper::is_whitespace_grapheme`:
`symbol == ZWSP || symbol.chars().all(char::is_whitespace) && symbol != NBSP`
(Rust `&&` binds tighter than `||`). -/
def is_whitespace_grapheme {σ : Type} (g : StyledGrapheme σ) : Bool :=
  g.symbol == ZWSP || (g.symbol.data.all rustCharWhitespace && g.symbol != NBSP)

/-- `unicode_width::UnicodeWidthStr::width`, as the sum of the abstract
per-char widths. -/
def stringWidth (cw : Char → Nat) (s : String) : Nat :=
  (s.data.map cw).sum

/-- Width of one styled grapheme (`grapheme.symbol.width()`). -/
def gWidth {σ : Type} (cw : Char → Nat) (g : StyledGrapheme σ) : Nat :=
  stringWidth cw g.symbol

/-- Total width of a sequence of styled graphemes (the computation done in
`WordWrapper::next_line` when a cached line is emitted). -/
def sumWidth {σ : Type} (cw : Char → Nat) (l : List (StyledGrapheme σ)) : Nat :=
  (l.map (gWidth cw)).sum

/-- A produced physical line: `WrappedLine` of the source (the borrowed slice
is modelled as an owned list). -/
structure WrappedLine (σ : Type) where
  line : List (StyledGrapheme σ)
  width : Nat
  alignment : Alignment
deriving DecidableEq, Repr

/-- The local state of `WordWrapper::process_input` together with the
accumulating `wrapped_lines` queue.  `pending_whitespace` is a `VecDeque`
pushed at the back and popped at the front, so a plain list in order works. -/
structure WWState (σ : Type) where
  pending_line : List (StyledGrapheme σ)
  line_width : Nat
  word_width : Nat
  whitespace_width : Nat
  non_whitespace_previous : Bool
  pending_word : List (StyledGrapheme σ)
  pending_whitespace : List (StyledGrapheme σ)
  wrapped : List (List (StyledGrapheme σ))
deriving Repr

variable {σ : Type}

/-- The initial state of one `process_input` run (all accumulators cleared;
the source reuses pooled buffers but clears them first, which does not change
observable content). -/
def initState : WWState σ :=
  ⟨[], 0, 0, 0, false, [], [], []⟩

/-- The `while let Some(grapheme) = self.pending_whitespace.front()` loop that
removes whitespace up to the end of line after a wrapped line is emitted.
Returns the remaining `pending_whitespace` and the updated
`whitespace_width`.  (`whitespace_width -= width` never underflows because
`whitespace_width` is the total width of `pending_whitespace`; as `Nat`
subtraction it is modelled exactly.) -/
def dropWhitespace (cw : Char → Nat) :
    List (StyledGrapheme σ) → Nat → Nat → List (StyledGrapheme σ) × Nat
  | [], wsw, _ => ([], wsw)
  | g :: rest, wsw, remaining =>
    let w := gWidth cw g
    if w > remaining then (g :: rest, wsw)
    else dropWhitespace cw rest (wsw - w) (remaining - w)

/-- The "append finished segment to current line" block of the loop body:
move `pending_whitespace` (unless trimming an empty line) and `pending_word`
into `pending_line`; `pending_whitespace` is cleared unconditionally. -/
def wwFlush (trim : Bool) (s : WWState σ) : WWState σ :=
  let (pl, lw) :=
    if !s.pending_line.isEmpty || !trim then
      (s.pending_line ++ s.pending_whitespace, s.line_width + s.whitespace_width)
    else (s.pending_line, s.line_width)
  { s with
      pending_line := pl ++ s.pending_word
      line_width := lw + s.word_width
      pending_word := []
      pending_whitespace := []
      whitespace_width := 0
      word_width := 0 }

/-- The "add finished wrapped line to remaining lines" block: push
`pending_line` onto the queue and remove whitespace up to the end of line
(`u16::saturating_sub` for `remaining_width` is `Nat` subtraction). -/
def wwEmitLine (cw : Char → Nat) (max_line_width : Nat) (s : WWState σ) : WWState σ :=
  let remaining_width := max_line_width - s.line_width
  let (pws, wsw) := dropWhitespace cw s.pending_whitespace s.whitespace_width
    remaining_width
  { s with
      wrapped := s.wrapped ++ [s.pending_line]
      pending_line := []
      line_width := 0
      pending_whitespace := pws
      whitespace_width := wsw }

/-- The "append symbol to a pending buffer" block, including the update of
`non_whitespace_previous`. -/
def wwAppend (cw : Char → Nat) (is_whitespace : Bool) (g : StyledGrapheme σ)
    (s : WWState σ) : WWState σ :=
  let symbol_width := gWidth cw g
  let s3 :=
    if is_whitespace then
      { s with
          whitespace_width := s.whitespace_width + symbol_width
          pending_whitespace := s.pending_whitespace ++ [g] }
    else
      { s with
          word_width := s.word_width + symbol_width
          pending_word := s.pending_word ++ [g] }
  { s3 with non_whitespace_previous := !is_whitespace }

/-- `word_found || trimmed_overflow || whitespace_overflow ||
untrimmed_overflow`: whether the loop body appends the finished segment to
the current line. -/
def wwFlushCond (cw : Char → Nat) (max_line_width : Nat) (trim : Bool)
    (s : WWState σ) (g : StyledGrapheme σ) : Bool :=
  -- word boundary event
  (s.non_whitespace_previous && is_whitespace_grapheme g) ||
    -- current word would overflow after removing whitespace
    (s.pending_line.isEmpty && trim &&
      decide (s.word_width + gWidth cw g > max_line_width)) ||
    -- separated whitespace would overflow on its own
    (s.pending_line.isEmpty && trim &&
      decide (s.whitespace_width + gWidth cw g > max_line_width)) ||
    -- current full word (including whitespace) would overflow
    (s.pending_line.isEmpty && !trim &&
      decide (s.word_width + s.whitespace_width + gWidth cw g > max_line_width))

/-- `line_full || pending_word_overflow`: whether the loop body pushes the
pending line onto the queue of finished wrapped lines. -/
def wwEmitCond (cw : Char → Nat) (max_line_width : Nat)
    (s1 : WWState σ) (g : StyledGrapheme σ) : Bool :=
  -- pending line fills up limit
  decide (s1.line_width ≥ max_line_width) ||
    -- pending word would overflow line limit
    (decide (gWidth cw g > 0) &&
      decide (s1.line_width + s1.whitespace_width + s1.word_width ≥ max_line_width))

/-- The body of the `for grapheme in line_symbols` loop of
`WordWrapper::process_input`, one grapheme at a time.  The two `continue`s of
the source (wider-than-limit symbols; the first whitespace after a break when
no whitespace survived the break) return the state unchanged, in particular
leaving `non_whitespace_previous` untouched. -/
def wwStep (cw : Char → Nat) (max_line_width : Nat) (trim : Bool)
    (s : WWState σ) (g : StyledGrapheme σ) : WWState σ :=
  -- ignore symbols wider than line limit
  if gWidth cw g > max_line_width then s
  else
    -- append finished segment to current line
    let s1 := if wwFlushCond cw max_line_width trim s g then wwFlush trim s else s
    -- add finished wrapped line to remaining lines
    if wwEmitCond cw max_line_width s1 g then
      let s2 := wwEmitLine cw max_line_width s1
      -- don't count first whitespace toward next word
      if is_whitespace_grapheme g && s2.pending_whitespace.isEmpty then s2
      else wwAppend cw (is_whitespace_grapheme g) g s2
    else wwAppend cw (is_whitespace_grapheme g) g s1

/-- The "append remaining text parts" epilogue of `process_input` (the code
after the loop), producing the final list of wrapped lines for one logical
line.  `process_input` is only invoked with an empty `wrapped_lines` queue
(`next_line` drains the queue first), so the final emptiness check is on the
lines produced by this run. -/
def wwFinalize (trim : Bool) (s : WWState σ) : List (List (StyledGrapheme σ)) :=
  let out1 :=
    if s.pending_line.isEmpty && s.pending_word.isEmpty &&
        !s.pending_whitespace.isEmpty then
      s.wrapped ++ [[]]
    else s.wrapped
  let pl1 :=
    if !s.pending_line.isEmpty || !trim then s.pending_line ++ s.pending_whitespace
    else s.pending_line
  let pl2 := pl1 ++ s.pending_word
  let out2 := if !pl2.isEmpty then out1 ++ [pl2] else out1
  if out2.isEmpty then [[]] else out2

/-- `WordWrapper::process_input`: split one logical line into wrapped lines. -/
def process_input (cw : Char → Nat) (max_line_width : Nat) (trim : Bool)
    (line_symbols : List (StyledGrapheme σ)) : List (List (StyledGrapheme σ)) :=
  wwFinalize trim (line_symbols.foldl (wwStep cw max_line_width trim) initState)

/-- The loop of `WordWrapper::next_line`, run to exhaustion: emit every cached
wrapped line of the `wrapped_lines` queue one call at a time (tagged with
`current_alignment` and its recomputed width), then process the next input
line, which sets `current_alignment` and refills the queue, and continue.
The queue is always drained before the next logical line is processed, so the
one-at-a-time popping is the map over the queue below. -/
def drainLines (cw : Char → Nat) (max_line_width : Nat) (trim : Bool) :
    List (List (StyledGrapheme σ)) → Alignment →
    List (List (StyledGrapheme σ) × Alignment) → List (WrappedLine σ)
  | queue, align, [] => queue.map fun l => ⟨l, sumWidth cw l, align⟩
  | queue, align, (line, a) :: inputs =>
    (queue.map fun l => ⟨l, sumWidth cw l, align⟩) ++
      drainLines cw max_line_width trim (process_input cw max_line_width trim line) a inputs

/-- All lines produced by repeatedly calling `WordWrapper::next_line` until it
returns `None`.  `next_line` returns `None` immediately when
`max_line_width == 0`; `current_alignment` starts as `Alignment::Left`. -/
def wordWrapAll (cw : Char → Nat) (max_line_width : Nat) (trim : Bool)
    (inputs : List (List (StyledGrapheme σ) × Alignment)) : List (WrappedLine σ) :=
  if max_line_width = 0 then []
  else drainLines cw max_line_width trim [] Alignment.left inputs

/-- The number of chars of the leading grapheme clusters consumed by
`trim_offset`'s loop (the source counts bytes; consumed clusters are a prefix
of the string, so dropping their chars models the byte slice). -/
def trimStart (cw : Char → Nat) : List String → Nat → Nat
  | [], _ => 0
  | c :: rest, offset =>
    let w := stringWidth cw c
    if w ≤ offset then c.data.length + trimStart cw rest (offset - w)
    else 0

/-- `trim_offset`: return the slice of `src` starting at the given column
offset, only ever removing whole leading grapheme clusters. -/
def trim_offset (cw : Char → Nat) (seg : String → List String)
    (src : String) (offset : Nat) : String :=
  ⟨src.data.drop (trimStart cw (seg src) offset)⟩

/-- The `for StyledGrapheme { symbol, style } in current_line` loop of
`LineTruncator::next_line`: `rest` is the unprocessed part of the logical
line, `horizontal_offset` the remaining columns to skip (only applied to
left-aligned lines), `current_line_width` the width accumulated so far.
Returns the emitted graphemes and the final width. -/
def truncLoop (cw : Char → Nat) (seg : String → List String)
    (max_line_width : Nat) (isLeft : Bool) :
    List (StyledGrapheme σ) → Nat → Nat → List (StyledGrapheme σ) × Nat
  | [], _, current_line_width => ([], current_line_width)
  | g :: rest, horizontal_offset, current_line_width =>
    -- Ignore characters wider that the total max width.
    if gWidth cw g > max_line_width then
      truncLoop cw seg max_line_width isLeft rest horizontal_offset current_line_width
    -- Truncate line
    else if current_line_width + gWidth cw g > max_line_width then
      ([], current_line_width)
    else if horizontal_offset = 0 || !isLeft then
      let r := truncLoop cw seg max_line_width isLeft rest horizontal_offset
        (current_line_width + gWidth cw g)
      (g :: r.1, r.2)
    else if gWidth cw g > horizontal_offset then
      let t : StyledGrapheme σ := ⟨trim_offset cw seg g.symbol horizontal_offset, g.style⟩
      let r := truncLoop cw seg max_line_width isLeft rest 0
        (current_line_width + gWidth cw t)
      (t :: r.1, r.2)
    else
      -- the replaced symbol is "", of width 0, so current_line_width is unchanged
      let e : StyledGrapheme σ := ⟨"", g.style⟩
      let r := truncLoop cw seg max_line_width isLeft rest
        (horizontal_offset - gWidth cw g) current_line_width
      (e :: r.1, r.2)

/-- One successful call of `LineTruncator::next_line` on one logical line
(the `max_width == 0` early return is handled by the driver below). -/
def truncOne (cw : Char → Nat) (seg : String → List String)
    (max_line_width : Nat) (horizontal_offset : Nat)
    (p : List (StyledGrapheme σ) × Alignment) : WrappedLine σ :=
  let r := truncLoop cw seg max_line_width (decide (p.2 = Alignment.left))
    p.1 horizontal_offset 0
  ⟨r.1, r.2, p.2⟩

/-- All lines produced by repeatedly calling `LineTruncator::next_line` until
it returns `None`: each call first checks `max_line_width == 0`, then consumes
exactly one logical line. -/
def truncRun (cw : Char → Nat) (seg : String → List String)
    (max_line_width : Nat) (horizontal_offset : Nat) :
    List (List (StyledGrapheme σ) × Alignment) → List (WrappedLine σ)
  | [] => []
  | p :: rest =>
    if max_line_width = 0 then []
    else truncOne cw seg max_line_width horizontal_offset p ::
      truncRun cw seg max_line_width horizontal_offset rest

/-- Helper for `wordsOf`: scan the line, `acc` holding the currently open run
of non-whitespace graphemes. -/
def wordsOfAux : List (StyledGrapheme σ) → List (StyledGrapheme σ) →
    List (List (StyledGrapheme σ))
  | [], acc => if acc.isEmpty then [] else [acc]
  | g :: rest, acc =>
    if is_whitespace_grapheme g then
      (if acc.isEmpty then [] else [acc]) ++ wordsOfAux rest []
    else wordsOfAux rest (acc ++ [g])

/-- Words of a logical line: the maximal runs of graphemes that are not
classified as whitespace by `is_whitespace_grapheme`, in order. -/
def wordsOf (l : List (StyledGrapheme σ)) : List (List (StyledGrapheme σ)) :=
  wordsOfAux l []

/-- `WsErase orig out`: `out` is `orig` with some whitespace-classified
graphemes removed (so `orig` is recovered from `out` by reinserting dropped
whitespace, every kept grapheme unmodified in content, style and order). -/
inductive WsErase : List (StyledGrapheme σ) → List (StyledGrapheme σ) → Prop
  | nil : WsErase [] []
  | keep {g : StyledGrapheme σ} {l l'} : WsErase l l' → WsErase (g :: l) (g :: l')
  | dropWs {g : StyledGrapheme σ} {l l'} :
      is_whitespace_grapheme g = true → WsErase l l' → WsErase (g :: l) l'

/-- Modelled from the spec: "first removing the leading O columns from the
line" — graphemes lying wholly within the first `off` columns are removed;
if the offset ends inside a grapheme, that grapheme is trimmed by the
boundary-safe `trim_offset` (which only removes whole leading clusters) and
the rest of the line is kept. -/
def specRemoveColumns (cw : Char → Nat) (seg : String → List String) :
    List (StyledGrapheme σ) → Nat → List (StyledGrapheme σ)
  | l, 0 => l
  | [], _ + 1 => []
  | g :: rest, o + 1 =>
    if gWidth cw g ≤ o + 1 then specRemoveColumns cw seg rest (o + 1 - gWidth cw g)
    else ⟨trim_offset cw seg g.symbol (o + 1), g.style⟩ :: rest

/-- Graphemes with nonempty content (the truncation engine emits zero-width
placeholder graphemes with empty content for offset-consumed graphemes). -/
def dropEmpties (l : List (StyledGrapheme σ)) : List (StyledGrapheme σ) :=
  l.filter fun g => !(g.symbol == "")

/-- Total width of the first `n` graphemes of a line. -/
def widthUpTo (cw : Char → Nat) (l : List (StyledGrapheme σ)) (n : Nat) : Nat :=
  sumWidth cw (l.take n)

/-- A concrete fragment of unicode-width's char table, sufficient for the
concrete inputs used in witnesses and counterexamples below: ASCII and other
narrow chars have width 1, CJK ideographs and the ideographic space U+3000
have width 2, and the zero-width space contributes zero columns. -/
def cwStd (c : Char) : Nat :=
  if 0x4E00 ≤ c.toNat ∧ c.toNat ≤ 0x9FFF then 2
  else if c.toNat = 0x3000 then 2
  else if c.toNat = 0x200B then 0
  else 1

/-- A concrete grapheme segmentation valid for the concrete symbols used in
witnesses and counterexamples below (none of which contain combining
sequences): every char is its own cluster. -/
def charSeg (s : String) : List String :=
  s.data.map fun c => ⟨[c]⟩

/-- A logical line `" aaaaa"` (one leading space, then one word of width 5),
styles tagging positions. -/
def splitDemoLine : List (StyledGrapheme Nat) :=
  [⟨" ", 9⟩, ⟨"a", 0⟩, ⟨"a", 1⟩, ⟨"a", 2⟩, ⟨"a", 3⟩, ⟨"a", 5⟩]

/-- A logical line `"aaaa漢"`: a single word of widths 1,1,1,1,2. -/
def overflowDemoLine : List (StyledGrapheme Nat) :=
  [⟨"a", 0⟩, ⟨"a", 1⟩, ⟨"a", 2⟩, ⟨"a", 3⟩, ⟨"漢", 4⟩]

/-- All graphemes currently held by the scan state, in the order in which
they would eventually be emitted: finished wrapped lines, then the pending
line, then the pending whitespace, then the pending word. -/
def flightOf (s : WWState σ) : List (StyledGrapheme σ) :=
  s.wrapped.flatten ++ s.pending_line ++ s.pending_whitespace ++ s.pending_word

/-- Structural invariant of the scan state: a nonempty pending word means the
previous grapheme was non-whitespace (so a word-boundary flush fires before
any whitespace is appended), and the pending whitespace buffer only ever
holds whitespace-classified graphemes. -/
def scanInv (s : WWState σ) : Prop :=
  (s.pending_word ≠ [] → s.non_whitespace_previous = true) ∧
    ∀ g ∈ s.pending_whitespace, is_whitespace_grapheme g = true

/-- Invariant of the word-wrap scan state while only whitespace graphemes
have been consumed: everything except `pending_whitespace` is still empty,
and the pending whitespace never reaches beyond the limit. -/
def wsOnlyInv (max_line_width : Nat) (s : WWState σ) : Prop :=
  s.pending_line = [] ∧ s.line_width = 0 ∧ s.pending_word = [] ∧
    s.word_width = 0 ∧ s.wrapped = [] ∧ s.non_whitespace_previous = false ∧
    s.whitespace_width ≤ max_line_width

/-- Width of the leading run of non-whitespace graphemes of `l` (the part of
the current word that is still ahead in the unread input). -/
def headRunW (cw : Char → Nat) (l : List (StyledGrapheme σ)) : Nat :=
  sumWidth cw (l.takeWhile fun h => !is_whitespace_grapheme h)

/-- A pending line after which the scan may break cleanly: it is empty or
ends in a whitespace-classified grapheme, so no word straddles its end. -/
def okBreak (P : List (StyledGrapheme σ)) : Prop :=
  P = [] ∨ ∃ x, P.getLast? = some x ∧ is_whitespace_grapheme x = true

/-- The words still to be delivered from scan state `s` with unread input
`l`: the words of the finished wrapped lines, then the words of the in-flight
buffers followed by the unread input. -/
def wordsTotal (s : WWState σ) (l : List (StyledGrapheme σ)) :
    List (List (StyledGrapheme σ)) :=
  s.wrapped.flatMap wordsOf ++
    wordsOf (s.pending_line ++ s.pending_whitespace ++ s.pending_word ++ l)

/-- The whitespace-removal loop of the emission block, tracking only the list
and the remaining budget: pop leading graphemes while they fit.  Mirrors
`dropWhitespace` without the cached width. -/
def dwRest (cw : Char → Nat) :
    List (StyledGrapheme σ) → Nat → List (StyledGrapheme σ) × Nat
  | [], rem => ([], rem)
  | g :: rest, rem =>
    if gWidth cw g > rem then (g :: rest, rem)
    else dwRest cw rest (rem - gWidth cw g)

/-- Invariant of the word-wrap scan with `trim` enabled on input whose words
fit: the cached widths agree with the buffer contents, the buffers hold only
their own class of grapheme, a line break from this state would leave at most
one limit-wide whitespace grapheme pending, whitespace ahead of an open word
on an empty line fits the limit, the line width is below the limit, a state
with both pending buffers empty has a cleanly breakable line, the current
word (pending part plus the part still ahead in `l`) fits, and a line that
ends inside a word can still absorb the rest of that word. -/
def C2Inv (cw : Char → Nat) (max_line_width : Nat) (s : WWState σ)
    (l : List (StyledGrapheme σ)) : Prop :=
  s.line_width = sumWidth cw s.pending_line ∧
  s.word_width = sumWidth cw s.pending_word ∧
  s.whitespace_width = sumWidth cw s.pending_whitespace ∧
  (∀ g ∈ s.pending_whitespace, is_whitespace_grapheme g = true) ∧
  (∀ g ∈ s.pending_word, is_whitespace_grapheme g = false) ∧
  (s.pending_word ≠ [] → s.non_whitespace_previous = true) ∧
  sumWidth cw (dwRest cw s.pending_whitespace
    (max_line_width - s.line_width)).1 ≤ max_line_width ∧
  (s.pending_line = [] ∧ s.pending_word ≠ [] →
    s.whitespace_width ≤ max_line_width) ∧
  s.line_width < max_line_width ∧
  (s.pending_whitespace = [] ∧ s.pending_word = [] → okBreak s.pending_line) ∧
  s.word_width + headRunW cw l ≤ max_line_width ∧
  (¬okBreak s.pending_line ∧ s.pending_whitespace = [] ∧ s.pending_word ≠ [] →
    s.line_width + s.word_width + headRunW cw l ≤ max_line_width)

/-! ## Basic lemmas -/

/-- Reducing an `if` on a `Bool` known to be `true`. -/
theorem if_cond_true {α : Sort _} {b : Bool} (h : b = true) (x y : α) :
    (if b = true then x else y) = x := by simp [h]

/-- Reducing an `if` on a `Bool` known to be `false`. -/
theorem if_cond_false {α : Sort _} {b : Bool} (h : b = false) (x y : α) :
    (if b = true then x else y) = y := by simp [h]

theorem WsErase.self : ∀ l : List (StyledGrapheme σ), WsErase l l
  | [] => .nil
  | _ :: l => .keep (WsErase.self l)

/-- Erasures compose across concatenation. -/
theorem WsErase.append {a b c d : List (StyledGrapheme σ)}
    (h₁ : WsErase a b) (h₂ : WsErase c d) : WsErase (a ++ c) (b ++ d) := by
  induction h₁ with
  | nil => simpa using h₂
  | keep _ ih => exact .keep ih
  | dropWs hg _ ih => exact .dropWs hg ih

/-- A run of whitespace graphemes can be erased entirely. -/
theorem WsErase.dropAll {u : List (StyledGrapheme σ)}
    (hu : ∀ g ∈ u, is_whitespace_grapheme g = true) : WsErase u [] := by
  induction u with
  | nil => exact .nil
  | cons g rest ih =>
    exact .dropWs (hu g (by simp)) (ih fun h hm => hu h (by simp [hm]))

theorem WsErase.nil_left {m : List (StyledGrapheme σ)} (h : WsErase [] m) :
    m = [] := by cases h; rfl

/-- Erasure is transitive. -/
theorem WsErase.trans {a b c : List (StyledGrapheme σ)}
    (h₁ : WsErase a b) (h₂ : WsErase b c) : WsErase a c := by
  induction h₁ generalizing c with
  | nil => rw [h₂.nil_left]; exact .nil
  | keep h₁' ih =>
    cases h₂ with
    | keep h₂' => exact .keep (ih h₂')
    | dropWs hg h₂' => exact .dropWs hg (ih h₂')
  | dropWs hg h₁' ih => exact .dropWs hg (ih h₂)

/-- Appending a kept grapheme on both sides. -/
theorem WsErase.snoc_keep {a b : List (StyledGrapheme σ)}
    (h : WsErase a b) (g : StyledGrapheme σ) : WsErase (a ++ [g]) (b ++ [g]) :=
  h.append (WsErase.self [g])

/-- Appending a whitespace grapheme on the left only. -/
theorem WsErase.snoc_drop {a b : List (StyledGrapheme σ)}
    (h : WsErase a b) {g : StyledGrapheme σ}
    (hg : is_whitespace_grapheme g = true) : WsErase (a ++ [g]) b := by
  have := h.append (WsErase.dropAll (u := [g]) (by simpa using hg))
  simpa using this

/-- Erasing a whitespace run from the middle. -/
theorem WsErase.middle {x u y : List (StyledGrapheme σ)}
    (hu : ∀ g ∈ u, is_whitespace_grapheme g = true) :
    WsErase (x ++ u ++ y) (x ++ y) := by
  have := (WsErase.self x).append ((WsErase.dropAll hu).append (WsErase.self y))
  simpa using this

/-- The post-break whitespace removal only ever pops graphemes from the
front: the remaining deque is a suffix. -/
theorem dropWhitespace_suffix (cw : Char → Nat) :
    ∀ (l : List (StyledGrapheme σ)) (wsw remaining : Nat),
      ∃ u, l = u ++ (dropWhitespace cw l wsw remaining).1 := by
  intro l
  induction l with
  | nil => exact fun _ _ => ⟨[], rfl⟩
  | cons g rest ih =>
    intro wsw remaining
    rw [dropWhitespace]
    by_cases hw : gWidth cw g > remaining
    · exact ⟨[], by simp [hw]⟩
    · obtain ⟨u, hu⟩ := ih (wsw - gWidth cw g) (remaining - gWidth cw g)
      exact ⟨g :: u, by simp [hw, ← hu]⟩

/-- Inversion for `WsErase` at a non-whitespace head: the head must be kept. -/
theorem WsErase.keep_head {g : StyledGrapheme σ} {l m : List (StyledGrapheme σ)}
    (h : WsErase (g :: l) m) (hg : ¬ is_whitespace_grapheme g = true) :
    ∃ m', m = g :: m' ∧ WsErase l m' := by
  cases h with
  | keep h' => exact ⟨_, rfl, h'⟩
  | dropWs hws h' => exact absurd hws hg

/-- Dropping leading chars cannot increase the summed char width. -/
theorem sum_map_drop_le (cw : Char → Nat) (s : List Char) (n : Nat) :
    ((s.drop n).map cw).sum ≤ (s.map cw).sum := by
  conv_rhs => rw [← List.take_append_drop n s]
  rw [List.map_append, List.sum_append]
  omega

/-- `trim_offset` returns a suffix of the chars of `src`, so its width never
exceeds the width of `src`. -/
theorem stringWidth_trim_offset_le (cw : Char → Nat) (seg : String → List String)
    (src : String) (off : Nat) :
    stringWidth cw (trim_offset cw seg src off) ≤ stringWidth cw src :=
  sum_map_drop_le cw src.data (trimStart cw (seg src) off)

/-- The truncation loop never accumulates a width beyond `max_line_width`. -/
theorem truncLoop_width_le (cw : Char → Nat) (seg : String → List String)
    (max_line_width : Nat) (isLeft : Bool) (l : List (StyledGrapheme σ)) :
    ∀ (off curw : Nat), curw ≤ max_line_width →
      (truncLoop cw seg max_line_width isLeft l off curw).2 ≤ max_line_width := by
  induction l with
  | nil => intro off curw h; simpa [truncLoop] using h
  | cons g rest ih =>
    intro off curw h
    simp only [truncLoop]
    split
    · exact ih off curw h
    · split
      · simpa using h
      · rename_i hwide hfit
        split
        · exact ih off (curw + gWidth cw g) (by omega)
        · split
          · exact ih 0 (curw + gWidth cw ⟨trim_offset cw seg g.symbol off, g.style⟩)
              (by have := stringWidth_trim_offset_le cw seg g.symbol off
                  simp only [gWidth] at *
                  omega)
          · exact ih (off - gWidth cw g) curw h

/-- One `next_line` pass over the queue: the queue entries are emitted first,
under the current alignment, before any further input line is processed. -/
theorem drainLines_queue (cw : Char → Nat) (max_line_width : Nat) (trim : Bool)
    (queue : List (List (StyledGrapheme σ))) (align : Alignment)
    (inputs : List (List (StyledGrapheme σ) × Alignment)) :
    drainLines cw max_line_width trim queue align inputs =
      (queue.map fun l => ⟨l, sumWidth cw l, align⟩) ++
        drainLines cw max_line_width trim [] align inputs := by
  cases inputs <;> simp [drainLines]

/-- Draining from an empty queue processes the logical lines one by one: each
contributes the wrapped lines of `process_input`, tagged with its own
alignment and their recomputed widths. -/
theorem drainLines_flatMap (cw : Char → Nat) (max_line_width : Nat) (trim : Bool)
    (inputs : List (List (StyledGrapheme σ) × Alignment)) (align : Alignment) :
    drainLines cw max_line_width trim [] align inputs =
      inputs.flatMap fun p =>
        (process_input cw max_line_width trim p.1).map fun l =>
          ⟨l, sumWidth cw l, p.2⟩ := by
  induction inputs generalizing align with
  | nil => simp [drainLines]
  | cons p rest ih =>
    obtain ⟨line, a⟩ := p
    rw [drainLines, drainLines_queue, ih]
    simp

theorem widthUpTo_zero (cw : Char → Nat) (l : List (StyledGrapheme σ)) :
    widthUpTo cw l 0 = 0 := rfl

theorem widthUpTo_cons_succ (cw : Char → Nat) (g : StyledGrapheme σ)
    (rest : List (StyledGrapheme σ)) (n : Nat) :
    widthUpTo cw (g :: rest) (n + 1) = gWidth cw g + widthUpTo cw rest n := by
  simp [widthUpTo, sumWidth]

/-- During the offset-skipping phase of the truncation loop (accumulated
width 0, all graphemes no wider than the limit), every grapheme whose width
fits entirely inside the remaining offset is emitted as an empty-content
placeholder carrying its original style. -/
theorem truncLoop_offset_placeholder (cw : Char → Nat) (seg : String → List String)
    (max_line_width : Nat) (line : List (StyledGrapheme σ))
    (hfit : ∀ g ∈ line, gWidth cw g ≤ max_line_width) :
    ∀ (i O : Nat) (hi : i < line.length), widthUpTo cw line i < O →
      widthUpTo cw line (i + 1) ≤ O →
      (truncLoop cw seg max_line_width true line O 0).1.get? i =
        some ⟨"", (line.get ⟨i, hi⟩).style⟩ := by
  induction line with
  | nil => intro i O hi; exact absurd hi (by simp)
  | cons g rest ih =>
    intro i O hi hlt hle
    have hg : gWidth cw g ≤ max_line_width := hfit g (by simp)
    have hgO : gWidth cw g ≤ O := by
      have h1 : gWidth cw g ≤ widthUpTo cw (g :: rest) (i + 1) := by
        cases i with
        | zero => simp [widthUpTo_cons_succ]
        | succ n => simp [widthUpTo_cons_succ]
      omega
    have hO0 : O ≠ 0 := by
      have := widthUpTo_zero cw (g :: rest)
      cases i with
      | zero => omega
      | succ n => rw [widthUpTo_cons_succ] at hlt; omega
    simp only [truncLoop]
    rw [if_neg (by omega), if_neg (by omega), if_neg (by simp [hO0]),
      if_neg (by omega)]
    cases i with
    | zero => simp
    | succ n =>
      simp only [List.get?_cons_succ, List.get]
      rw [widthUpTo_cons_succ] at hlt hle
      exact ih (fun h hm => hfit h (by simp [hm])) n (O - gWidth cw g)
        (by simpa using hi) (by omega) (by omega)

/-- Removing the leading offset columns inside the truncation loop agrees
with removing them from the line first (`specRemoveColumns`) and truncating
with offset 0: same final width and the same graphemes once the zero-width
empty-content placeholders are discarded — provided no grapheme is wider than
the limit. -/
theorem truncLoop_offset_equiv (cw : Char → Nat) (seg : String → List String)
    (max_line_width : Nat) (line : List (StyledGrapheme σ))
    (hfit : ∀ g ∈ line, gWidth cw g ≤ max_line_width) :
    ∀ O : Nat,
      (truncLoop cw seg max_line_width true line O 0).2 =
        (truncLoop cw seg max_line_width true
          (specRemoveColumns cw seg line O) 0 0).2 ∧
      dropEmpties (truncLoop cw seg max_line_width true line O 0).1 =
        dropEmpties (truncLoop cw seg max_line_width true
          (specRemoveColumns cw seg line O) 0 0).1 := by
  induction line with
  | nil => intro O; cases O <;> simp [specRemoveColumns, truncLoop, dropEmpties]
  | cons g rest ih =>
    intro O
    have hg : gWidth cw g ≤ max_line_width := hfit g (by simp)
    have hfit' : ∀ h ∈ rest, gWidth cw h ≤ max_line_width :=
      fun h hm => hfit h (by simp [hm])
    cases O with
    | zero => exact ⟨rfl, rfl⟩
    | succ o =>
      by_cases hcase : gWidth cw g ≤ o + 1
      · -- the grapheme is wholly consumed: placeholder on the left,
        -- removed on the right
        have hrm : specRemoveColumns cw seg (g :: rest) (o + 1) =
            specRemoveColumns cw seg rest (o + 1 - gWidth cw g) := by
          simp [specRemoveColumns, hcase]
        obtain ⟨hw, hd⟩ := ih hfit' (o + 1 - gWidth cw g)
        constructor
        · rw [hrm, ← hw]
          simp only [truncLoop]
          rw [if_neg (by omega), if_neg (by omega), if_neg (by simp), if_neg (by omega)]
        · rw [hrm, ← hd]
          simp only [truncLoop]
          rw [if_neg (by omega), if_neg (by omega), if_neg (by simp), if_neg (by omega)]
          simp [dropEmpties]
      · -- the offset ends inside the grapheme: both sides keep the trimmed
        -- grapheme and continue identically with offset 0
        have ht : gWidth cw (⟨trim_offset cw seg g.symbol (o + 1), g.style⟩ :
            StyledGrapheme σ) ≤ gWidth cw g :=
          stringWidth_trim_offset_le cw seg g.symbol (o + 1)
        have hrm : specRemoveColumns cw seg (g :: rest) (o + 1) =
            ⟨trim_offset cw seg g.symbol (o + 1), g.style⟩ :: rest := by
          simp [specRemoveColumns, hcase]
        rw [hrm]
        constructor
        · simp only [truncLoop]
          rw [if_neg (by omega), if_neg (by omega), if_neg (by simp),
            if_pos (by omega), if_neg (by omega), if_neg (by omega),
            if_pos (by simp)]
        · simp only [truncLoop]
          rw [if_neg (by omega), if_neg (by omega), if_neg (by simp),
            if_pos (by omega), if_neg (by omega), if_neg (by omega),
            if_pos (by simp)]

/-- The loop body preserves `wsOnlyInv` on whitespace graphemes: an
all-whitespace line never emits anything during the scan. -/
theorem wwStep_ws_only (cw : Char → Nat) (max_line_width : Nat)
    (h0 : 0 < max_line_width) (s : WWState σ) (g : StyledGrapheme σ)
    (hg : is_whitespace_grapheme g = true) (hs : wsOnlyInv max_line_width s) :
    wsOnlyInv max_line_width (wwStep cw max_line_width true s g) := by
  obtain ⟨h1, h2, h3, h4, h5, h6, h7⟩ := hs
  by_cases hwide : gWidth cw g > max_line_width
  · rw [wwStep, if_pos hwide]
    exact ⟨h1, h2, h3, h4, h5, h6, h7⟩
  · have hflush : wwFlush true s =
        ({ pending_line := [], line_width := 0, word_width := 0,
           whitespace_width := 0, non_whitespace_previous := false,
           pending_word := [], pending_whitespace := [],
           wrapped := s.wrapped } : WWState σ) := by
      rw [wwFlush]
      simp [h1, h2, h3, h4, h6]
    have hfc : wwFlushCond cw max_line_width true s g =
        decide (s.whitespace_width + gWidth cw g > max_line_width) := by
      rw [wwFlushCond]
      simp only [h1, h4, h6, List.isEmpty_nil, Bool.false_and, Bool.and_true,
        Bool.true_and, Bool.not_true, Bool.and_false, Bool.or_false,
        Bool.false_or, decide_eq_false (show ¬ (0 + gWidth cw g > max_line_width)
          by omega)]
    rw [wwStep, if_neg hwide, hg]
    by_cases hwso : s.whitespace_width + gWidth cw g > max_line_width
    · simp only [hfc, decide_eq_true hwso, eq_self_iff_true, if_true, hflush]
      rw [if_neg (by
        simp only [wwEmitCond]
        dsimp only
        simp only [Bool.or_eq_true, Bool.and_eq_true, decide_eq_true_eq]
        omega)]
      exact ⟨rfl, rfl, rfl, rfl, h5, rfl,
        by show 0 + gWidth cw g ≤ max_line_width; omega⟩
    · simp only [hfc, decide_eq_false hwso, if_neg Bool.false_ne_true]
      rw [if_neg (by
        simp only [wwEmitCond, Bool.or_eq_true, Bool.and_eq_true,
          decide_eq_true_eq, h2, h4]
        omega)]
      exact ⟨h1, h2, h3, h4, h5, rfl,
        by show s.whitespace_width + gWidth cw g ≤ max_line_width; omega⟩

theorem wwAppend_ws (cw : Char → Nat) (g : StyledGrapheme σ) (s : WWState σ) :
    wwAppend cw true g s =
      { s with whitespace_width := s.whitespace_width + gWidth cw g,
               pending_whitespace := s.pending_whitespace ++ [g],
               non_whitespace_previous := false } := rfl

theorem wwAppend_word (cw : Char → Nat) (g : StyledGrapheme σ) (s : WWState σ) :
    wwAppend cw false g s =
      { s with word_width := s.word_width + gWidth cw g,
               pending_word := s.pending_word ++ [g],
               non_whitespace_previous := true } := rfl

/-- Unfolding `wwEmitLine` with the whitespace-removal result projected. -/
theorem wwEmitLine_eq (cw : Char → Nat) (max_line_width : Nat) (s : WWState σ) :
    wwEmitLine cw max_line_width s =
      { s with
          wrapped := s.wrapped ++ [s.pending_line],
          pending_line := [],
          line_width := 0,
          pending_whitespace := (dropWhitespace cw s.pending_whitespace
            s.whitespace_width (max_line_width - s.line_width)).1,
          whitespace_width := (dropWhitespace cw s.pending_whitespace
            s.whitespace_width (max_line_width - s.line_width)).2 } := by
  rcases hdw : dropWhitespace cw s.pending_whitespace s.whitespace_width
    (max_line_width - s.line_width) with ⟨pws, wsw⟩
  rw [wwEmitLine, hdw]

/-- Unfolding `wwFlush` when the whitespace is moved into the line. -/
theorem wwFlush_keep (trim : Bool) (s : WWState σ)
    (hc : (!s.pending_line.isEmpty || !trim) = true) :
    wwFlush trim s =
      { s with
          pending_line := (s.pending_line ++ s.pending_whitespace) ++ s.pending_word,
          line_width := (s.line_width + s.whitespace_width) + s.word_width,
          pending_word := [], pending_whitespace := [],
          whitespace_width := 0, word_width := 0 } := by
  rw [wwFlush, if_cond_true hc]

/-- Unfolding `wwFlush` when the whitespace is discarded (trimming while the
line is still empty). -/
theorem wwFlush_drop (trim : Bool) (s : WWState σ)
    (hc : (!s.pending_line.isEmpty || !trim) = false) :
    wwFlush trim s =
      { s with
          pending_line := s.pending_line ++ s.pending_word,
          line_width := s.line_width + s.word_width,
          pending_word := [], pending_whitespace := [],
          whitespace_width := 0, word_width := 0 } := by
  rw [wwFlush, if_cond_false hc]

/-- The flush block never loses non-whitespace content. -/
theorem wwFlush_flight (trim : Bool) (s : WWState σ)
    (hws : ∀ g ∈ s.pending_whitespace, is_whitespace_grapheme g = true) :
    WsErase (flightOf s) (flightOf (wwFlush trim s)) ∧
      (wwFlush trim s).pending_word = [] ∧
      (wwFlush trim s).pending_whitespace = [] ∧
      (wwFlush trim s).wrapped = s.wrapped := by
  by_cases hc : (!s.pending_line.isEmpty || !trim) = true
  · rw [wwFlush_keep trim s hc]
    refine ⟨?_, rfl, rfl, rfl⟩
    have heq : flightOf ({ s with
        pending_line := (s.pending_line ++ s.pending_whitespace) ++ s.pending_word,
        line_width := (s.line_width + s.whitespace_width) + s.word_width,
        pending_word := [], pending_whitespace := [],
        whitespace_width := 0, word_width := 0 } : WWState σ) = flightOf s := by
      simp [flightOf]
    rw [heq]
    exact WsErase.self _
  · have hc' : (!s.pending_line.isEmpty || !trim) = false :=
      Bool.eq_false_iff.mpr hc
    have hpl : s.pending_line = [] := by
      rcases Bool.or_eq_false_iff.mp hc' with ⟨hb, -⟩
      simpa using hb
    rw [wwFlush_drop trim s hc']
    refine ⟨?_, rfl, rfl, rfl⟩
    simp only [flightOf, hpl, List.nil_append, List.append_nil]
    exact WsErase.middle hws

/-- The line-emission block never loses non-whitespace content. -/
theorem wwEmitLine_flight (cw : Char → Nat) (max_line_width : Nat) (s : WWState σ)
    (hws : ∀ g ∈ s.pending_whitespace, is_whitespace_grapheme g = true) :
    WsErase (flightOf s) (flightOf (wwEmitLine cw max_line_width s)) ∧
      (wwEmitLine cw max_line_width s).pending_word = s.pending_word ∧
      (∀ g ∈ (wwEmitLine cw max_line_width s).pending_whitespace,
        is_whitespace_grapheme g = true) ∧
      (wwEmitLine cw max_line_width s).non_whitespace_previous =
        s.non_whitespace_previous := by
  obtain ⟨u, hu⟩ := dropWhitespace_suffix cw s.pending_whitespace
    s.whitespace_width (max_line_width - s.line_width)
  have humem : ∀ g ∈ u, is_whitespace_grapheme g = true := fun g hg =>
    hws g (by rw [hu]; exact List.mem_append_left _ hg)
  have hsub : ∀ g ∈ (dropWhitespace cw s.pending_whitespace s.whitespace_width
      (max_line_width - s.line_width)).1, is_whitespace_grapheme g = true :=
    fun g hg => hws g (by rw [hu]; exact List.mem_append_right _ hg)
  rw [wwEmitLine_eq]
  refine ⟨?_, rfl, hsub, rfl⟩
  have hflight : flightOf s = (s.wrapped.flatten ++ s.pending_line) ++ u ++
      ((dropWhitespace cw s.pending_whitespace s.whitespace_width
        (max_line_width - s.line_width)).1 ++ s.pending_word) := by
    rw [flightOf]
    conv_lhs => rw [hu]
    simp [List.append_assoc]
  rw [hflight]
  have h2 : flightOf ({ s with
      wrapped := s.wrapped ++ [s.pending_line],
      pending_line := [],
      line_width := 0,
      pending_whitespace := (dropWhitespace cw s.pending_whitespace
        s.whitespace_width (max_line_width - s.line_width)).1,
      whitespace_width := (dropWhitespace cw s.pending_whitespace
        s.whitespace_width (max_line_width - s.line_width)).2 } : WWState σ) =
      (s.wrapped.flatten ++ s.pending_line) ++
        ((dropWhitespace cw s.pending_whitespace s.whitespace_width
          (max_line_width - s.line_width)).1 ++ s.pending_word) := by
    simp [flightOf]
  rw [h2]
  exact WsErase.middle humem

/-- One loop-body step never loses non-whitespace content and preserves the
structural invariant, as long as the grapheme is not wider than the limit
(then it is skipped and lost, whitespace or not). -/
theorem wwStep_flight (cw : Char → Nat) (max_line_width : Nat) (trim : Bool)
    (s : WWState σ) (g : StyledGrapheme σ) (hw : ¬ gWidth cw g > max_line_width)
    (hinv : scanInv s) :
    scanInv (wwStep cw max_line_width trim s g) ∧
      WsErase (flightOf s ++ [g]) (flightOf (wwStep cw max_line_width trim s g)) := by
  obtain ⟨hnwp, hws⟩ := hinv
  rw [wwStep, if_neg hw]
  by_cases hfl : wwFlushCond cw max_line_width trim s g = true
  · rw [if_cond_true hfl]
    obtain ⟨hEr1, hpw1, hpws1, hwr1⟩ := wwFlush_flight trim s hws
    by_cases hem : wwEmitCond cw max_line_width (wwFlush trim s) g = true
    · rw [if_cond_true hem]
      obtain ⟨hEr2, hpw2, hws2, hnw2⟩ := wwEmitLine_flight cw max_line_width
        (wwFlush trim s) (by rw [hpws1]; simp)
      have hEr12 := hEr1.trans hEr2
      cases hisws : is_whitespace_grapheme g with
      | true =>
        have hpws2 : (wwEmitLine cw max_line_width (wwFlush trim s)).pending_whitespace
            = [] := by
          rw [wwEmitLine_eq, hpws1]
          simp [dropWhitespace]
        dsimp only
        rw [if_cond_true (by simp [hpws2])]
        refine ⟨⟨fun hne => absurd (hpw2.trans hpw1) hne, ?_⟩, ?_⟩
        · rw [hpws2]; simp
        · exact hEr12.snoc_drop hisws
      | false =>
        dsimp only
        rw [if_cond_false (by simp), wwAppend_word]
        refine ⟨⟨fun _ => rfl, hws2⟩, ?_⟩
        have heq : flightOf ({ wwEmitLine cw max_line_width (wwFlush trim s) with
            word_width := (wwEmitLine cw max_line_width (wwFlush trim s)).word_width
              + gWidth cw g,
            pending_word := (wwEmitLine cw max_line_width (wwFlush trim s)).pending_word
              ++ [g],
            non_whitespace_previous := true } : WWState σ) =
            flightOf (wwEmitLine cw max_line_width (wwFlush trim s)) ++ [g] := by
          simp [flightOf]
        rw [heq]
        exact hEr12.snoc_keep g
    · rw [if_cond_false (Bool.eq_false_iff.mpr hem)]
      cases hisws : is_whitespace_grapheme g with
      | true =>
        rw [wwAppend_ws]
        refine ⟨⟨fun hne => absurd hpw1 hne, ?_⟩, ?_⟩
        · intro h hm
          rw [hpws1] at hm
          simp at hm
          rw [hm]
          exact hisws
        · have heq : flightOf ({ wwFlush trim s with
              whitespace_width := (wwFlush trim s).whitespace_width + gWidth cw g,
              pending_whitespace := (wwFlush trim s).pending_whitespace ++ [g],
              non_whitespace_previous := false } : WWState σ) =
              flightOf (wwFlush trim s) ++ [g] := by
            simp [flightOf, hpw1]
          rw [heq]
          exact hEr1.snoc_keep g
      | false =>
        rw [wwAppend_word]
        refine ⟨⟨fun _ => rfl, by rw [hpws1]; simp⟩, ?_⟩
        have heq : flightOf ({ wwFlush trim s with
            word_width := (wwFlush trim s).word_width + gWidth cw g,
            pending_word := (wwFlush trim s).pending_word ++ [g],
            non_whitespace_previous := true } : WWState σ) =
            flightOf (wwFlush trim s) ++ [g] := by
          simp [flightOf]
        rw [heq]
        exact hEr1.snoc_keep g
  · rw [if_cond_false (Bool.eq_false_iff.mpr hfl)]
    have hpw_ws : is_whitespace_grapheme g = true → s.pending_word = [] := by
      intro hg
      by_contra hne
      apply hfl
      rw [wwFlushCond, hnwp hne, hg]
      simp
    by_cases hem : wwEmitCond cw max_line_width s g = true
    · rw [if_cond_true hem]
      obtain ⟨hEr2, hpw2, hws2, hnw2⟩ := wwEmitLine_flight cw max_line_width s hws
      cases hisws : is_whitespace_grapheme g with
      | true =>
        by_cases hpE : (wwEmitLine cw max_line_width s).pending_whitespace = []
        · dsimp only
          rw [if_cond_true (by simp [hpE])]
          refine ⟨⟨fun hne => by rw [hnw2]; exact hnwp (by rwa [hpw2] at hne), hws2⟩,
            hEr2.snoc_drop hisws⟩
        · dsimp only
          rw [if_cond_false (by simpa using hpE), wwAppend_ws]
          refine ⟨⟨fun hne => absurd (hpw2.trans (hpw_ws hisws)) hne, ?_⟩, ?_⟩
          · intro h hm
            rcases List.mem_append.mp hm with hm' | hm'
            · exact hws2 h hm'
            · simp at hm'
              rw [hm']
              exact hisws
          · have heq : flightOf ({ wwEmitLine cw max_line_width s with
                whitespace_width := (wwEmitLine cw max_line_width s).whitespace_width
                  + gWidth cw g,
                pending_whitespace := (wwEmitLine cw max_line_width s).pending_whitespace
                  ++ [g],
                non_whitespace_previous := false } : WWState σ) =
                flightOf (wwEmitLine cw max_line_width s) ++ [g] := by
              simp [flightOf, hpw2.trans (hpw_ws hisws)]
            rw [heq]
            exact hEr2.snoc_keep g
      | false =>
        dsimp only
        rw [if_cond_false (by simp), wwAppend_word]
        refine ⟨⟨fun _ => rfl, hws2⟩, ?_⟩
        have heq : flightOf ({ wwEmitLine cw max_line_width s with
            word_width := (wwEmitLine cw max_line_width s).word_width + gWidth cw g,
            pending_word := (wwEmitLine cw max_line_width s).pending_word ++ [g],
            non_whitespace_previous := true } : WWState σ) =
            flightOf (wwEmitLine cw max_line_width s) ++ [g] := by
          simp [flightOf]
        rw [heq]
        exact hEr2.snoc_keep g
    · rw [if_cond_false (Bool.eq_false_iff.mpr hem)]
      cases hisws : is_whitespace_grapheme g with
      | true =>
        rw [wwAppend_ws]
        refine ⟨⟨fun hne => absurd (hpw_ws hisws) hne, ?_⟩, ?_⟩
        · intro h hm
          rcases List.mem_append.mp hm with hm' | hm'
          · exact hws h hm'
          · simp at hm'
            rw [hm']
            exact hisws
        · have heq : flightOf ({ s with
              whitespace_width := s.whitespace_width + gWidth cw g,
              pending_whitespace := s.pending_whitespace ++ [g],
              non_whitespace_previous := false } : WWState σ) =
              flightOf s ++ [g] := by
            simp [flightOf, hpw_ws hisws]
          rw [heq]
          exact WsErase.self _
      | false =>
        rw [wwAppend_word]
        refine ⟨⟨fun _ => rfl, hws⟩, ?_⟩
        have heq : flightOf ({ s with
            word_width := s.word_width + gWidth cw g,
            pending_word := s.pending_word ++ [g],
            non_whitespace_previous := true } : WWState σ) =
            flightOf s ++ [g] := by
          simp [flightOf]
        rw [heq]
        exact WsErase.self _

/-- Scanning a whole logical line never loses non-whitespace content. -/
theorem foldl_flight (cw : Char → Nat) (max_line_width : Nat) (trim : Bool) :
    ∀ (l : List (StyledGrapheme σ)) (s : WWState σ), scanInv s →
      (∀ g ∈ l, ¬ gWidth cw g > max_line_width) →
      scanInv (l.foldl (wwStep cw max_line_width trim) s) ∧
        WsErase (flightOf s ++ l)
          (flightOf (l.foldl (wwStep cw max_line_width trim) s)) := by
  intro l
  induction l with
  | nil => intro s hs _; exact ⟨hs, by simpa using WsErase.self _⟩
  | cons g rest ih =>
    intro s hs hwide
    rw [List.foldl_cons]
    obtain ⟨hinv', hEr⟩ := wwStep_flight cw max_line_width trim s g
      (hwide g (by simp)) hs
    obtain ⟨hinv'', hEr'⟩ := ih (wwStep cw max_line_width trim s g) hinv'
      fun h hm => hwide h (by simp [hm])
    refine ⟨hinv'', ?_⟩
    have h1 := hEr.append (WsErase.self rest)
    have h2 := h1.trans hEr'
    simpa using h2

/-- What the epilogue of `process_input` actually emits, flattened: every
wrapped line so far, then (unless trimming an empty line) the pending
whitespace, then the pending word. -/
theorem wwFinalize_flatten (trim : Bool) (s : WWState σ) :
    (wwFinalize trim s).flatten =
      s.wrapped.flatten ++
        (if (!s.pending_line.isEmpty || !trim) = true then
          s.pending_line ++ s.pending_whitespace
        else s.pending_line) ++ s.pending_word := by
  rw [wwFinalize]
  split_ifs <;> simp_all [List.append_assoc]

/-- The epilogue never loses non-whitespace content. -/
theorem wwFinalize_flight (trim : Bool) (s : WWState σ)
    (hws : ∀ g ∈ s.pending_whitespace, is_whitespace_grapheme g = true) :
    WsErase (flightOf s) (wwFinalize trim s).flatten := by
  rw [wwFinalize_flatten]
  by_cases hc : (!s.pending_line.isEmpty || !trim) = true
  · rw [if_cond_true hc]
    have heq : s.wrapped.flatten ++ (s.pending_line ++ s.pending_whitespace) ++
        s.pending_word = flightOf s := by
      simp [flightOf]
    rw [heq]
    exact WsErase.self _
  · rw [if_cond_false (Bool.eq_false_iff.mpr hc)]
    have hEr := WsErase.middle (x := s.wrapped.flatten ++ s.pending_line)
      (u := s.pending_whitespace) (y := s.pending_word) hws
    simpa [flightOf, List.append_assoc] using hEr

/-- One logical line: the flattened wrapped lines are the line with some
whitespace graphemes removed, provided no grapheme is wider than the limit
(a wider one is dropped whole, whitespace or not). -/
theorem process_input_wsErase (cw : Char → Nat) (max_line_width : Nat)
    (trim : Bool) (l : List (StyledGrapheme σ))
    (hwide : ∀ g ∈ l, gWidth cw g ≤ max_line_width) :
    WsErase l (process_input cw max_line_width trim l).flatten := by
  obtain ⟨hinv, hEr⟩ := foldl_flight cw max_line_width trim l initState
    ⟨fun h => absurd rfl h, by simp [initState]⟩
    (fun g hm => by have := hwide g hm; omega)
  rw [process_input]
  have h2 := wwFinalize_flight trim
    (l.foldl (wwStep cw max_line_width trim) initState) hinv.2
  have h1 : WsErase l
      (flightOf (l.foldl (wwStep cw max_line_width trim) initState)) := by
    simpa [flightOf, initState] using hEr
  exact h1.trans h2

/-! ## Word algebra -/

/-- `sumWidth` distributes over concatenation. -/
theorem sumWidth_append (cw : Char → Nat) (a b : List (StyledGrapheme σ)) :
    sumWidth cw (a ++ b) = sumWidth cw a + sumWidth cw b := by
  simp [sumWidth]

/-- `sumWidth` of a cons. -/
theorem sumWidth_cons (cw : Char → Nat) (g : StyledGrapheme σ)
    (l : List (StyledGrapheme σ)) :
    sumWidth cw (g :: l) = gWidth cw g + sumWidth cw l := by
  simp [sumWidth]

/-- A whitespace head contributes no leading word run. -/
theorem headRunW_cons_ws (cw : Char → Nat) (g : StyledGrapheme σ)
    (l : List (StyledGrapheme σ)) (hg : is_whitespace_grapheme g = true) :
    headRunW cw (g :: l) = 0 := by
  simp [headRunW, List.takeWhile_cons, hg, sumWidth]

/-- A non-whitespace head extends the leading word run. -/
theorem headRunW_cons_word (cw : Char → Nat) (g : StyledGrapheme σ)
    (l : List (StyledGrapheme σ)) (hg : is_whitespace_grapheme g = false) :
    headRunW cw (g :: l) = gWidth cw g + headRunW cw l := by
  simp [headRunW, List.takeWhile_cons, hg, sumWidth]

/-- The empty line has no words. -/
theorem wordsOf_nil : wordsOf ([] : List (StyledGrapheme σ)) = [] := rfl

/-- A whitespace head contributes no word. -/
theorem wordsOf_cons_ws (g : StyledGrapheme σ) (l : List (StyledGrapheme σ))
    (hg : is_whitespace_grapheme g = true) : wordsOf (g :: l) = wordsOf l := by
  simp [wordsOf, wordsOfAux, hg]

/-- Scanning with a nonempty open run: the run is closed by the next
whitespace (or the end of input) into one word. -/
theorem wordsOfAux_acc :
    ∀ (l : List (StyledGrapheme σ)) (acc), acc ≠ [] →
      wordsOfAux l acc =
        (acc ++ l.takeWhile fun h => !is_whitespace_grapheme h) ::
          wordsOf (l.dropWhile fun h => !is_whitespace_grapheme h)
  | [], acc, hacc => by
    cases acc with
    | nil => exact absurd rfl hacc
    | cons a as => simp [wordsOfAux, wordsOf]
  | g :: rest, acc, hacc => by
    cases hg : is_whitespace_grapheme g with
    | true =>
      cases acc with
      | nil => exact absurd rfl hacc
      | cons a as =>
        simp [wordsOfAux, hg, List.takeWhile_cons, List.dropWhile_cons,
          wordsOf_cons_ws g rest hg, wordsOf]
    | false =>
      have hne : acc ++ [g] ≠ [] := by simp
      rw [wordsOfAux, if_cond_false hg, wordsOfAux_acc rest (acc ++ [g]) hne]
      simp [List.takeWhile_cons, List.dropWhile_cons, hg]

/-- A non-whitespace head opens the first word, which extends to the next
whitespace. -/
theorem wordsOf_cons_word (g : StyledGrapheme σ) (l : List (StyledGrapheme σ))
    (hg : is_whitespace_grapheme g = false) :
    wordsOf (g :: l) =
      (g :: l.takeWhile fun h => !is_whitespace_grapheme h) ::
        wordsOf (l.dropWhile fun h => !is_whitespace_grapheme h) := by
  rw [wordsOf, wordsOfAux, if_cond_false hg, List.nil_append,
    wordsOfAux_acc l [g] (by simp)]
  rfl

/-- The words of a line are its leading word run (when nonempty) followed by
the words after it. -/
theorem wordsOf_take_drop (l : List (StyledGrapheme σ)) :
    wordsOf l =
      (if (l.takeWhile fun h => !is_whitespace_grapheme h).isEmpty then []
        else [l.takeWhile fun h => !is_whitespace_grapheme h]) ++
        wordsOf (l.dropWhile fun h => !is_whitespace_grapheme h) := by
  cases l with
  | nil => rfl
  | cons g rest =>
    cases hg : is_whitespace_grapheme g with
    | true =>
      simp [List.takeWhile_cons, List.dropWhile_cons, hg, wordsOf_cons_ws g rest hg]
    | false =>
      simp [List.takeWhile_cons, List.dropWhile_cons, hg, wordsOf_cons_word g rest hg]

/-- Scanning an all-whitespace run yields only the open word, if any. -/
theorem wordsOfAux_all_ws :
    ∀ (u : List (StyledGrapheme σ)) (acc),
      (∀ g ∈ u, is_whitespace_grapheme g = true) →
      wordsOfAux u acc = if acc.isEmpty then [] else [acc]
  | [], _, _ => rfl
  | g :: u, acc, h => by
    rw [wordsOfAux, if_cond_true (h g (by simp)),
      wordsOfAux_all_ws u [] (fun x hx => h x (by simp [hx]))]
    simp

/-- An all-whitespace line has no words. -/
theorem wordsOf_all_ws (u : List (StyledGrapheme σ))
    (h : ∀ g ∈ u, is_whitespace_grapheme g = true) : wordsOf u = [] := by
  rw [wordsOf, wordsOfAux_all_ws u [] h]; rfl

/-- Leading whitespace contributes no words. -/
theorem wordsOf_ws_append :
    ∀ (u : List (StyledGrapheme σ)) (l), (∀ g ∈ u, is_whitespace_grapheme g = true) →
      wordsOf (u ++ l) = wordsOf l
  | [], _, _ => rfl
  | g :: u, l, h => by
    rw [List.cons_append, wordsOf_cons_ws _ _ (h g (by simp)),
      wordsOf_ws_append u l (fun x hx => h x (by simp [hx]))]

/-- Trailing whitespace contributes no words (auxiliary, any accumulator). -/
theorem wordsOfAux_append_ws (u : List (StyledGrapheme σ))
    (hu : ∀ g ∈ u, is_whitespace_grapheme g = true) :
    ∀ (x : List (StyledGrapheme σ)) (acc),
      wordsOfAux (x ++ u) acc = wordsOfAux x acc
  | [], acc => by
    rw [List.nil_append, wordsOfAux_all_ws u acc hu]; rfl
  | g :: x, acc => by
    cases hg : is_whitespace_grapheme g with
    | true =>
      rw [List.cons_append, wordsOfAux, if_cond_true hg, wordsOfAux,
        if_cond_true hg, wordsOfAux_append_ws u hu x []]
    | false =>
      rw [List.cons_append, wordsOfAux, if_cond_false hg, wordsOfAux,
        if_cond_false hg, wordsOfAux_append_ws u hu x (acc ++ [g])]

/-- Trailing whitespace contributes no words. -/
theorem wordsOf_append_ws (x u : List (StyledGrapheme σ))
    (hu : ∀ g ∈ u, is_whitespace_grapheme g = true) :
    wordsOf (x ++ u) = wordsOf x :=
  wordsOfAux_append_ws u hu x []

/-- After an all-whitespace run, the scan restarts independently (auxiliary,
empty accumulator). -/
theorem wordsOfAux_ws_restart (y : List (StyledGrapheme σ)) :
    ∀ (u : List (StyledGrapheme σ)), (∀ g ∈ u, is_whitespace_grapheme g = true) →
      wordsOfAux (u ++ y) [] = wordsOfAux u [] ++ wordsOf y
  | [], _ => by simp [wordsOfAux, wordsOf]
  | g :: u, h => by
    rw [List.cons_append, wordsOfAux, if_cond_true (h g (by simp)), wordsOfAux,
      if_cond_true (h g (by simp)),
      wordsOfAux_ws_restart y u (fun x hx => h x (by simp [hx]))]
    simp

/-- Splitting the scan at a nonempty whitespace run (auxiliary, any
accumulator). -/
theorem wordsOfAux_split_mid (u y : List (StyledGrapheme σ))
    (hu : ∀ g ∈ u, is_whitespace_grapheme g = true) (hne : u ≠ []) :
    ∀ (x : List (StyledGrapheme σ)) (acc),
      wordsOfAux (x ++ u ++ y) acc = wordsOfAux (x ++ u) acc ++ wordsOf y
  | [], acc => by
    cases u with
    | nil => exact absurd rfl hne
    | cons w u' =>
      simp only [List.nil_append, List.cons_append]
      rw [wordsOfAux, if_cond_true (hu w (by simp))]
      conv_rhs => rw [wordsOfAux, if_cond_true (hu w (by simp))]
      rw [wordsOfAux_ws_restart y u' (fun x hx => hu x (by simp [hx]))]
      simp
  | g :: x, acc => by
    simp only [List.cons_append]
    cases hg : is_whitespace_grapheme g with
    | true =>
      rw [wordsOfAux, if_cond_true hg]
      conv_rhs => rw [wordsOfAux, if_cond_true hg]
      rw [wordsOfAux_split_mid u y hu hne x []]
      simp
    | false =>
      rw [wordsOfAux, if_cond_false hg]
      conv_rhs => rw [wordsOfAux, if_cond_false hg]
      rw [wordsOfAux_split_mid u y hu hne x (acc ++ [g])]

/-- A nonempty whitespace run separates the words on its two sides. -/
theorem wordsOf_split_ws (x u y : List (StyledGrapheme σ))
    (hu : ∀ g ∈ u, is_whitespace_grapheme g = true) (hne : u ≠ []) :
    wordsOf (x ++ u ++ y) = wordsOf x ++ wordsOf y := by
  rw [wordsOf, wordsOfAux_split_mid u y hu hne x []]
  rw [show wordsOfAux (x ++ u) [] = wordsOf (x ++ u) from rfl,
    wordsOf_append_ws x u hu]

/-- A cleanly breakable line separates its words from what follows. -/
theorem wordsOf_split_okBreak (x z : List (StyledGrapheme σ))
    (hx : okBreak x) : wordsOf (x ++ z) = wordsOf x ++ wordsOf z := by
  cases hx with
  | inl h => subst h; rfl
  | inr h =>
    obtain ⟨w, hlast, hw⟩ := h
    cases hxe : x with
    | nil => subst hxe; simp at hlast
    | cons a as =>
      have hxne : x ≠ [] := by rw [hxe]; simp
      rw [← hxe] at *
      have hdecomp : x.dropLast ++ [x.getLast hxne] = x :=
        List.dropLast_append_getLast hxne
      have hwlast : x.getLast hxne = w := by
        have := List.getLast?_eq_getLast x hxne
        rw [hlast] at this
        exact (Option.some_inj.mp this.symm)
      have hwsrun : ∀ g ∈ [x.getLast hxne], is_whitespace_grapheme g = true := by
        intro g hg
        simp at hg
        rw [hg, hwlast]; exact hw
      calc wordsOf (x ++ z) = wordsOf (x.dropLast ++ [x.getLast hxne] ++ z) := by
            rw [hdecomp]
        _ = wordsOf x.dropLast ++ wordsOf z :=
            wordsOf_split_ws _ _ _ hwsrun (by simp)
        _ = wordsOf (x.dropLast ++ [x.getLast hxne]) ++ wordsOf z := by
            rw [wordsOf_append_ws _ _ hwsrun]
        _ = wordsOf x ++ wordsOf z := by rw [hdecomp]

/-- The empty line breaks cleanly. -/
theorem okBreak_nil : okBreak ([] : List (StyledGrapheme σ)) := Or.inl rfl

/-- A line ending in a whitespace grapheme breaks cleanly. -/
theorem okBreak_snoc_ws (x : List (StyledGrapheme σ)) (g : StyledGrapheme σ)
    (hg : is_whitespace_grapheme g = true) : okBreak (x ++ [g]) :=
  Or.inr ⟨g, by simp, hg⟩

/-- If every word of a line fits, its leading word run fits. -/
theorem headRunW_le_of_fits (cw : Char → Nat) (m : Nat) :
    ∀ (l : List (StyledGrapheme σ)),
      (∀ w ∈ wordsOf l, sumWidth cw w ≤ m) → headRunW cw l ≤ m
  | [], _ => Nat.zero_le m
  | g :: l, h => by
    cases hg : is_whitespace_grapheme g with
    | true => rw [headRunW_cons_ws cw g l hg]; exact Nat.zero_le m
    | false =>
      have hmem : (g :: l.takeWhile fun h => !is_whitespace_grapheme h) ∈
          wordsOf (g :: l) := by
        rw [wordsOf_cons_word g l hg]; exact List.mem_cons_self _ _
      have := h _ hmem
      rw [sumWidth_cons] at this
      rw [headRunW_cons_word cw g l hg]
      exact Nat.le_trans (Nat.add_le_add_left (Nat.le_refl _) _) this

/-- If every word of `g :: l` fits, every word of `l` fits. -/
theorem wordsOf_fits_tail (cw : Char → Nat) (m : Nat) (g : StyledGrapheme σ)
    (l : List (StyledGrapheme σ))
    (h : ∀ w ∈ wordsOf (g :: l), sumWidth cw w ≤ m) :
    ∀ w ∈ wordsOf l, sumWidth cw w ≤ m := by
  cases hg : is_whitespace_grapheme g with
  | true => rw [wordsOf_cons_ws g l hg] at h; exact h
  | false =>
    intro w hmem
    rw [wordsOf_take_drop l] at hmem
    rcases List.mem_append.mp hmem with hm | hm
    · have hweq : w = l.takeWhile fun h => !is_whitespace_grapheme h := by
        cases he : (l.takeWhile fun h => !is_whitespace_grapheme h).isEmpty with
        | true => rw [he] at hm; simp at hm
        | false => rw [he] at hm; simpa using hm
      have hhead := h _ (by rw [wordsOf_cons_word g l hg]; exact List.mem_cons_self _ _)
      rw [sumWidth_cons] at hhead
      rw [hweq]
      omega
    · exact h w (by rw [wordsOf_cons_word g l hg]; exact List.mem_cons_of_mem _ hm)

/-- The whitespace-removal loop keeps the cached width equal to the true
width of the remaining whitespace. -/
theorem dropWhitespace_width (cw : Char → Nat) :
    ∀ (l : List (StyledGrapheme σ)) (rem : Nat),
      (dropWhitespace cw l (sumWidth cw l) rem).2 =
        sumWidth cw (dropWhitespace cw l (sumWidth cw l) rem).1
  | [], _ => rfl
  | g :: rest, rem => by
    rw [dropWhitespace]
    by_cases hw : gWidth cw g > rem
    · rw [if_pos hw]
    · rw [if_neg hw]
      have hsub : sumWidth cw (g :: rest) - gWidth cw g = sumWidth cw rest := by
        rw [sumWidth_cons]; omega
      rw [hsub]
      exact dropWhitespace_width cw rest (rem - gWidth cw g)

/-- A suffix has no larger total width. -/
theorem sumWidth_suffix_le (cw : Char → Nat) (u l : List (StyledGrapheme σ))
    (h : ∃ v, l = v ++ u) : sumWidth cw u ≤ sumWidth cw l := by
  obtain ⟨v, hv⟩ := h
  rw [hv, sumWidth_append]
  omega

/-- `sumWidth` of a singleton. -/
theorem sumWidth_singleton (cw : Char → Nat) (g : StyledGrapheme σ) :
    sumWidth cw [g] = gWidth cw g := by
  simp [sumWidth]

/-- `dropWhitespace` and `dwRest` remove the same graphemes. -/
theorem dwRest_fst (cw : Char → Nat) :
    ∀ (l : List (StyledGrapheme σ)) (wsw rem : Nat),
      (dropWhitespace cw l wsw rem).1 = (dwRest cw l rem).1
  | [], _, _ => rfl
  | g :: rest, wsw, rem => by
    rw [dropWhitespace, dwRest]
    by_cases hw : gWidth cw g > rem
    · rw [if_pos hw, if_pos hw]
    · rw [if_neg hw, if_neg hw]
      exact dwRest_fst cw rest (wsw - gWidth cw g) (rem - gWidth cw g)

/-- The removal loop on a deque with one more grapheme at the back. -/
theorem dwRest_snoc (cw : Char → Nat) (g : StyledGrapheme σ) :
    ∀ (u : List (StyledGrapheme σ)) (rem : Nat),
      dwRest cw (u ++ [g]) rem =
        if (dwRest cw u rem).1.isEmpty then
          (if gWidth cw g > (dwRest cw u rem).2 then ([g], (dwRest cw u rem).2)
            else ([], (dwRest cw u rem).2 - gWidth cw g))
        else ((dwRest cw u rem).1 ++ [g], (dwRest cw u rem).2)
  | [], rem => by
    rw [List.nil_append, dwRest]
    by_cases hw : gWidth cw g > rem
    · rw [if_pos hw]
      simp [dwRest, hw]
    · rw [if_neg hw]
      simp [dwRest, hw]
  | h :: u, rem => by
    by_cases hw : gWidth cw h > rem
    · have hr : dwRest cw (h :: u) rem = (h :: u, rem) := by
        rw [dwRest, if_pos hw]
      rw [List.cons_append, dwRest, if_pos hw, hr]
      simp
    · have hr : dwRest cw (h :: u) rem = dwRest cw u (rem - gWidth cw h) := by
        rw [dwRest, if_neg hw]
      rw [List.cons_append, dwRest, if_neg hw, hr]
      exact dwRest_snoc cw g u (rem - gWidth cw h)

/-- If the removal loop leaves anything, the whole run exceeded the budget. -/
theorem dwRest_gt (cw : Char → Nat) :
    ∀ (l : List (StyledGrapheme σ)) (rem : Nat),
      (dwRest cw l rem).1 ≠ [] → rem < sumWidth cw l
  | [], _ => fun h => absurd rfl h
  | g :: rest, rem => by
    rw [dwRest]
    by_cases hw : gWidth cw g > rem
    · rw [if_pos hw]
      intro _
      rw [sumWidth_cons]
      omega
    · rw [if_neg hw]
      intro h
      have := dwRest_gt cw rest (rem - gWidth cw g) h
      rw [sumWidth_cons]
      omega

/-- A whitespace run within budget is removed entirely. -/
theorem dwRest_all (cw : Char → Nat) :
    ∀ (l : List (StyledGrapheme σ)) (rem : Nat), sumWidth cw l ≤ rem →
      dwRest cw l rem = ([], rem - sumWidth cw l)
  | [], rem => by
    intro _
    rw [dwRest]
    simp [sumWidth]
  | g :: rest, rem => by
    intro h
    rw [sumWidth_cons] at h
    rw [dwRest, if_neg (by omega),
      dwRest_all cw rest (rem - gWidth cw g) (by omega), sumWidth_cons]
    rw [show rem - gWidth cw g - sumWidth cw rest =
      rem - (gWidth cw g + sumWidth cw rest) by omega]

/-- What the removal loop keeps of a single grapheme is at most that
grapheme. -/
theorem dwRest_singleton_le (cw : Char → Nat) (g : StyledGrapheme σ)
    (rem : Nat) : sumWidth cw (dwRest cw [g] rem).1 ≤ gWidth cw g := by
  rw [dwRest]
  by_cases hw : gWidth cw g > rem
  · rw [if_pos hw, sumWidth_singleton]
  · rw [if_neg hw]
    exact Nat.zero_le _

/-- The removal loop keeps a suffix of the deque. -/
theorem dwRest_suffix (cw : Char → Nat) (l : List (StyledGrapheme σ))
    (rem : Nat) : ∃ u, l = u ++ (dwRest cw l rem).1 := by
  obtain ⟨u, hu⟩ := dropWhitespace_suffix cw l 0 rem
  rw [dwRest_fst cw l 0 rem] at hu
  exact ⟨u, hu⟩

/-- Unfolding the flush condition with `trim` enabled. -/
theorem flushCond_iff (cw : Char → Nat) (m : Nat) (s : WWState σ)
    (g : StyledGrapheme σ) :
    wwFlushCond cw m true s g = true ↔
      (s.non_whitespace_previous = true ∧ is_whitespace_grapheme g = true) ∨
        (s.pending_line = [] ∧ m < s.word_width + gWidth cw g) ∨
        (s.pending_line = [] ∧ m < s.whitespace_width + gWidth cw g) := by
  simp [wwFlushCond, Bool.or_eq_true, Bool.and_eq_true, decide_eq_true_eq,
    List.isEmpty_iff]
  tauto

/-- Unfolding the emission condition. -/
theorem emitCond_iff (cw : Char → Nat) (m : Nat) (s1 : WWState σ)
    (g : StyledGrapheme σ) :
    wwEmitCond cw m s1 g = true ↔
      m ≤ s1.line_width ∨
        (0 < gWidth cw g ∧
          m ≤ s1.line_width + s1.whitespace_width + s1.word_width) := by
  simp [wwEmitCond, Bool.or_eq_true, Bool.and_eq_true, decide_eq_true_eq]

/-- Emission from a state with no pending whitespace only moves the line. -/
theorem wwEmitLine_no_ws (cw : Char → Nat) (m : Nat) (s : WWState σ)
    (h : s.pending_whitespace = []) :
    wwEmitLine cw m s =
      { s with wrapped := s.wrapped ++ [s.pending_line], pending_line := [],
               line_width := 0, pending_whitespace := [] } := by
  rw [wwEmitLine_eq, h]
  rfl

set_option maxHeartbeats 3200000 in
/-- One loop-body step with `trim` enabled preserves the word-integrity
invariant and the total word ledger, provided the words of the remaining
input and its whitespace graphemes fit the limit. -/
theorem wwStep_words (cw : Char → Nat) (m : Nat) (h0 : 0 < m)
    (s : WWState σ) (g : StyledGrapheme σ) (l : List (StyledGrapheme σ))
    (hinv : C2Inv cw m s (g :: l))
    (hF : ∀ w ∈ wordsOf (g :: l), sumWidth cw w ≤ m)
    (hwsF : ∀ x ∈ g :: l, is_whitespace_grapheme x = true → gWidth cw x ≤ m) :
    C2Inv cw m (wwStep cw m true s g) l ∧
      wordsTotal (wwStep cw m true s g) l = wordsTotal s (g :: l) := by
  obtain ⟨ha, hb, hc, hd, he, hf, hg14, hg6, hh, hj, hk, hi⟩ := hinv
  have hFl : ∀ w ∈ wordsOf l, sumWidth cw w ≤ m := wordsOf_fits_tail cw m g l hF
  have hTW : headRunW cw l ≤ m := headRunW_le_of_fits cw m l hFl
  rw [wwStep]
  cases hgws : is_whitespace_grapheme g with
  | false =>
    have hkk := hk
    rw [headRunW_cons_word cw g l hgws] at hkk
    have hwide : ¬ gWidth cw g > m := by omega
    rw [if_neg hwide]
    by_cases hfl : wwFlushCond cw m true s g = true
    · -- flush at a non-whitespace grapheme: the line is empty, so the flush
      -- drops the whitespace; the word keeps fitting, so no emission follows
      have hplE : s.pending_line = [] := by
        rcases (flushCond_iff cw m s g).mp hfl with ⟨-, hx⟩ | ⟨h1, -⟩ | ⟨h1, -⟩
        · rw [hgws] at hx; cases hx
        · exact h1
        · exact h1
      have hlw0 : s.line_width = 0 := by rw [ha, hplE]; rfl
      have hwwlt : s.word_width < m := by
        rcases (flushCond_iff cw m s g).mp hfl with ⟨-, hx⟩ | ⟨-, hto⟩ | ⟨-, hwso⟩
        · rw [hgws] at hx; cases hx
        · omega
        · cases hpw : s.pending_word with
          | nil =>
            have hww0 : s.word_width = 0 := by rw [hb, hpw]; rfl
            omega
          | cons p ps =>
            have hwsle : s.whitespace_width ≤ m :=
              hg6 ⟨hplE, by rw [hpw]; simp⟩
            omega
      have hdc : (!s.pending_line.isEmpty || !true) = false := by
        rw [hplE]; rfl
      rw [if_cond_true hfl, wwFlush_drop true s hdc]
      have hemF : wwEmitCond cw m ({ s with
          pending_line := s.pending_line ++ s.pending_word,
          line_width := s.line_width + s.word_width,
          pending_word := [], pending_whitespace := [],
          whitespace_width := 0, word_width := 0 } : WWState σ) g = false := by
        apply Bool.eq_false_iff.mpr
        intro hem
        rcases (emitCond_iff cw m _ g).mp hem with h1 | ⟨-, h2⟩
        · have h1' : m ≤ s.line_width + s.word_width := h1
          omega
        · have h2' : m ≤ s.line_width + s.word_width + 0 + 0 := h2
          omega
      rw [if_cond_false hemF, wwAppend_word]
      refine ⟨⟨?_, ?_, ?_, ?_, ?_, ?_, ?_, ?_, ?_, ?_, ?_, ?_⟩, ?_⟩
      · show s.line_width + s.word_width =
          sumWidth cw (s.pending_line ++ s.pending_word)
        rw [sumWidth_append, ha, hb]
      · show 0 + gWidth cw g = sumWidth cw ([] ++ [g])
        rw [List.nil_append, sumWidth_singleton, Nat.zero_add]
      · show (0 : Nat) = sumWidth cw ([] : List (StyledGrapheme σ))
        rfl
      · intro x hx
        exact absurd hx (List.not_mem_nil x)
      · show ∀ x ∈ [] ++ [g], is_whitespace_grapheme x = false
        intro x hx
        rw [List.nil_append, List.mem_singleton] at hx
        rw [hx]; exact hgws
      · intro _; rfl
      · exact Nat.zero_le m
      · intro _
        exact Nat.zero_le m
      · show s.line_width + s.word_width < m
        omega
      · rintro ⟨-, hx⟩
        rw [List.nil_append] at hx
        cases hx
      · show 0 + gWidth cw g + headRunW cw l ≤ m
        omega
      · rintro ⟨-, -, -⟩
        show s.line_width + s.word_width + (0 + gWidth cw g) + headRunW cw l ≤ m
        omega
      · show s.wrapped.flatMap wordsOf ++
            wordsOf ((s.pending_line ++ s.pending_word) ++ [] ++ ([] ++ [g]) ++ l) =
            s.wrapped.flatMap wordsOf ++
              wordsOf (s.pending_line ++ s.pending_whitespace ++ s.pending_word ++ (g :: l))
        rw [hplE]
        congr 1
        simp only [List.nil_append, List.append_nil, List.append_assoc,
          List.singleton_append]
        rw [wordsOf_ws_append s.pending_whitespace (s.pending_word ++ (g :: l)) hd]
    · -- no flush at a non-whitespace grapheme
      have hflF : wwFlushCond cw m true s g = false := Bool.eq_false_iff.mpr hfl
      rw [if_cond_false hflF]
      by_cases hem : wwEmitCond cw m s g = true
      · -- emission mid-word, then the word continues on the fresh line
        rw [if_cond_true hem]
        dsimp only
        rw [if_cond_false (by simp), wwAppend_word, wwEmitLine_eq]
        have hpwo : 0 < gWidth cw g ∧
            m ≤ s.line_width + s.whitespace_width + s.word_width := by
          rcases (emitCond_iff cw m s g).mp hem with h1 | h2
          · omega
          · exact h2
        have hw2 := dropWhitespace_width cw s.pending_whitespace (m - s.line_width)
        rw [← hc] at hw2
        have hfst := dwRest_fst cw s.pending_whitespace s.whitespace_width
          (m - s.line_width)
        have hw2le : sumWidth cw (dropWhitespace cw s.pending_whitespace
            s.whitespace_width (m - s.line_width)).1 ≤ m := by
          rw [hfst]; exact hg14
        have hd2 : ∀ x ∈ (dropWhitespace cw s.pending_whitespace
            s.whitespace_width (m - s.line_width)).1,
            is_whitespace_grapheme x = true := by
          obtain ⟨u, hu⟩ := dropWhitespace_suffix cw s.pending_whitespace
            s.whitespace_width (m - s.line_width)
          intro x hx
          exact hd x (by rw [hu]; exact List.mem_append_right u hx)
        refine ⟨⟨?_, ?_, ?_, ?_, ?_, ?_, ?_, ?_, ?_, ?_, ?_, ?_⟩, ?_⟩
        · show (0 : Nat) = sumWidth cw ([] : List (StyledGrapheme σ))
          rfl
        · show s.word_width + gWidth cw g = sumWidth cw (s.pending_word ++ [g])
          rw [sumWidth_append, sumWidth_singleton, hb]
        · exact hw2
        · exact hd2
        · intro x hx
          rcases List.mem_append.mp hx with hx' | hx'
          · exact he x hx'
          · rw [List.mem_singleton] at hx'
            rw [hx']; exact hgws
        · intro _; rfl
        · show sumWidth cw (dwRest cw (dropWhitespace cw s.pending_whitespace
              s.whitespace_width (m - s.line_width)).1 (m - 0)).1 ≤ m
          rw [Nat.sub_zero, hfst,
            dwRest_all cw ((dwRest cw s.pending_whitespace (m - s.line_width)).1)
              m hg14]
          exact Nat.zero_le m
        · intro _
          show (dropWhitespace cw s.pending_whitespace s.whitespace_width
            (m - s.line_width)).2 ≤ m
          rw [hw2]; exact hw2le
        · exact h0
        · rintro ⟨-, hx⟩
          rcases List.append_eq_nil.mp hx with ⟨-, hx2⟩
          cases hx2
        · show s.word_width + gWidth cw g + headRunW cw l ≤ m
          omega
        · rintro ⟨hno, -, -⟩
          exact absurd (Or.inl rfl) hno
        · show (s.wrapped ++ [s.pending_line]).flatMap wordsOf ++
              wordsOf ([] ++ (dropWhitespace cw s.pending_whitespace
                s.whitespace_width (m - s.line_width)).1 ++
                (s.pending_word ++ [g]) ++ l) =
              s.wrapped.flatMap wordsOf ++
                wordsOf (s.pending_line ++ s.pending_whitespace ++
                  s.pending_word ++ (g :: l))
          rw [List.flatMap_append]
          simp only [List.flatMap_cons, List.flatMap_nil, List.append_nil,
            List.nil_append, List.append_assoc, List.singleton_append]
          rw [wordsOf_ws_append _ (s.pending_word ++ (g :: l)) hd2]
          by_cases hpws : s.pending_whitespace = []
          · rw [hpws]
            simp only [List.nil_append]
            by_cases hob : okBreak s.pending_line
            · rw [wordsOf_split_okBreak s.pending_line _ hob]
            · exfalso
              cases hpw : s.pending_word with
              | nil => exact hob (hj ⟨hpws, hpw⟩)
              | cons p ps =>
                have hdang := hi ⟨hob, hpws, by rw [hpw]; simp⟩
                rw [headRunW_cons_word cw g l hgws] at hdang
                have hwsw0 : s.whitespace_width = 0 := by rw [hc, hpws]; rfl
                omega
          · rw [← List.append_assoc s.pending_line s.pending_whitespace,
              wordsOf_split_ws s.pending_line s.pending_whitespace
                (s.pending_word ++ (g :: l)) hd hpws]
      · -- plain word growth
        rw [if_cond_false (Bool.eq_false_iff.mpr hem), wwAppend_word]
        have hlt : s.line_width < m := hh
        refine ⟨⟨?_, ?_, ?_, ?_, ?_, ?_, ?_, ?_, ?_, ?_, ?_, ?_⟩, ?_⟩
        · exact ha
        · show s.word_width + gWidth cw g = sumWidth cw (s.pending_word ++ [g])
          rw [sumWidth_append, sumWidth_singleton, hb]
        · exact hc
        · exact hd
        · intro x hx
          rcases List.mem_append.mp hx with hx' | hx'
          · exact he x hx'
          · rw [List.mem_singleton] at hx'
            rw [hx']; exact hgws
        · intro _; rfl
        · exact hg14
        · rintro ⟨hplE, -⟩
          show s.whitespace_width ≤ m
          have hplE' : s.pending_line = [] := hplE
          cases hpw : s.pending_word with
          | nil =>
            have hwso : ¬ (s.pending_line = [] ∧
                m < s.whitespace_width + gWidth cw g) := by
              intro hx
              exact hfl ((flushCond_iff cw m s g).mpr (Or.inr (Or.inr hx)))
            by_contra hcon
            exact hwso ⟨hplE', by omega⟩
          | cons p ps =>
            exact hg6 ⟨hplE', by rw [hpw]; simp⟩
        · exact hh
        · rintro ⟨-, hx⟩
          rcases List.append_eq_nil.mp hx with ⟨-, hx2⟩
          cases hx2
        · show s.word_width + gWidth cw g + headRunW cw l ≤ m
          omega
        · rintro ⟨hno, hpwsE, -⟩
          show s.line_width + (s.word_width + gWidth cw g) + headRunW cw l ≤ m
          cases hpw : s.pending_word with
          | nil => exact absurd (hj ⟨hpwsE, hpw⟩) hno
          | cons p ps =>
            have hdang := hi ⟨hno, hpwsE, by rw [hpw]; simp⟩
            rw [headRunW_cons_word cw g l hgws] at hdang
            omega
        · show s.wrapped.flatMap wordsOf ++
              wordsOf (s.pending_line ++ s.pending_whitespace ++
                (s.pending_word ++ [g]) ++ l) =
              s.wrapped.flatMap wordsOf ++
                wordsOf (s.pending_line ++ s.pending_whitespace ++
                  s.pending_word ++ (g :: l))
          simp only [List.append_assoc, List.singleton_append]
  | true =>
    have hgww : gWidth cw g ≤ m := hwsF g (List.mem_cons_self g l) hgws
    have hwide : ¬ gWidth cw g > m := by omega
    rw [if_neg hwide]
    by_cases hfl : wwFlushCond cw m true s g = true
    · rw [if_cond_true hfl]
      by_cases hplE : s.pending_line = []
      · -- flush drops the whitespace (empty line, trimming)
        have hdc : (!s.pending_line.isEmpty || !true) = false := by
          rw [hplE]; rfl
        rw [wwFlush_drop true s hdc]
        have hlw0 : s.line_width = 0 := by rw [ha, hplE]; rfl
        by_cases hem : wwEmitCond cw m ({ s with
            pending_line := s.pending_line ++ s.pending_word,
            line_width := s.line_width + s.word_width,
            pending_word := [], pending_whitespace := [],
            whitespace_width := 0, word_width := 0 } : WWState σ) g = true
        · -- emission straight after the flush: nothing pending remains
          rw [if_cond_true hem, wwEmitLine_no_ws cw m _ rfl]
          rw [if_cond_true (by rfl)]
          refine ⟨⟨?_, ?_, ?_, ?_, ?_, ?_, ?_, ?_, ?_, ?_, ?_, ?_⟩, ?_⟩
          · show (0 : Nat) = sumWidth cw ([] : List (StyledGrapheme σ))
            rfl
          · show (0 : Nat) = sumWidth cw ([] : List (StyledGrapheme σ))
            rfl
          · show (0 : Nat) = sumWidth cw ([] : List (StyledGrapheme σ))
            rfl
          · intro x hx
            exact absurd hx (List.not_mem_nil x)
          · intro x hx
            exact absurd hx (List.not_mem_nil x)
          · rintro h
            exact absurd rfl h
          · exact Nat.zero_le m
          · rintro ⟨-, h⟩
            exact absurd rfl h
          · exact h0
          · intro _
            exact Or.inl rfl
          · show 0 + headRunW cw l ≤ m
            omega
          · rintro ⟨hno, -, -⟩
            exact absurd (Or.inl rfl) hno
          · show (s.wrapped ++ [s.pending_line ++ s.pending_word]).flatMap wordsOf ++
                wordsOf ([] ++ [] ++ [] ++ l) =
                s.wrapped.flatMap wordsOf ++
                  wordsOf (s.pending_line ++ s.pending_whitespace ++
                    s.pending_word ++ (g :: l))
            rw [hplE, List.flatMap_append]
            simp only [List.flatMap_cons, List.flatMap_nil, List.append_nil,
              List.nil_append, List.append_assoc]
            rw [wordsOf_ws_append s.pending_whitespace (s.pending_word ++ (g :: l)) hd,
              show (s.pending_word ++ g :: l : List (StyledGrapheme σ)) =
                s.pending_word ++ [g] ++ l by simp,
              wordsOf_split_ws s.pending_word [g] l
                (by intro x hx; rw [List.mem_singleton] at hx; rw [hx]; exact hgws)
                (by simp)]
        · -- flush, no emission: the whitespace grapheme starts a new run
          rw [if_cond_false (Bool.eq_false_iff.mpr hem), wwAppend_ws]
          have hlt : s.line_width + s.word_width < m := by
            by_contra hcon
            exact hem ((emitCond_iff cw m _ g).mpr (Or.inl
              (show m ≤ s.line_width + s.word_width by omega)))
          refine ⟨⟨?_, ?_, ?_, ?_, ?_, ?_, ?_, ?_, ?_, ?_, ?_, ?_⟩, ?_⟩
          · show s.line_width + s.word_width =
              sumWidth cw (s.pending_line ++ s.pending_word)
            rw [sumWidth_append, ha, hb]
          · show (0 : Nat) = sumWidth cw ([] : List (StyledGrapheme σ))
            rfl
          · show 0 + gWidth cw g = sumWidth cw ([] ++ [g])
            rw [List.nil_append, sumWidth_singleton, Nat.zero_add]
          · intro x hx
            rw [List.nil_append, List.mem_singleton] at hx
            rw [hx]; exact hgws
          · intro x hx
            exact absurd hx (List.not_mem_nil x)
          · rintro h
            exact absurd rfl h
          · show sumWidth cw (dwRest cw ([] ++ [g])
              (m - (s.line_width + s.word_width))).1 ≤ m
            rw [List.nil_append]
            exact Nat.le_trans (dwRest_singleton_le cw g _) hgww
          · rintro ⟨-, h⟩
            exact absurd rfl h
          · show s.line_width + s.word_width < m
            exact hlt
          · rintro ⟨h, -⟩
            rw [List.nil_append] at h
            cases h
          · show 0 + headRunW cw l ≤ m
            omega
          · rintro ⟨-, h, -⟩
            rw [List.nil_append] at h
            cases h
          · show s.wrapped.flatMap wordsOf ++
                wordsOf ((s.pending_line ++ s.pending_word) ++ ([] ++ [g]) ++ [] ++ l) =
                s.wrapped.flatMap wordsOf ++
                  wordsOf (s.pending_line ++ s.pending_whitespace ++
                    s.pending_word ++ (g :: l))
            rw [hplE]
            congr 1
            simp only [List.nil_append, List.append_nil, List.append_assoc,
              List.singleton_append]
            rw [wordsOf_ws_append s.pending_whitespace (s.pending_word ++ (g :: l)) hd]
      · -- flush keeps the whitespace (line nonempty)
        have hkc : (!s.pending_line.isEmpty || !true) = true := by
          cases hp : s.pending_line with
          | nil => exact absurd hp hplE
          | cons a as => rfl
        rw [wwFlush_keep true s hkc]
        by_cases hem : wwEmitCond cw m ({ s with
            pending_line := (s.pending_line ++ s.pending_whitespace) ++ s.pending_word,
            line_width := (s.line_width + s.whitespace_width) + s.word_width,
            pending_word := [], pending_whitespace := [],
            whitespace_width := 0, word_width := 0 } : WWState σ) g = true
        · rw [if_cond_true hem, wwEmitLine_no_ws cw m _ rfl]
          rw [if_cond_true (by rfl)]
          refine ⟨⟨?_, ?_, ?_, ?_, ?_, ?_, ?_, ?_, ?_, ?_, ?_, ?_⟩, ?_⟩
          · show (0 : Nat) = sumWidth cw ([] : List (StyledGrapheme σ))
            rfl
          · show (0 : Nat) = sumWidth cw ([] : List (StyledGrapheme σ))
            rfl
          · show (0 : Nat) = sumWidth cw ([] : List (StyledGrapheme σ))
            rfl
          · intro x hx
            exact absurd hx (List.not_mem_nil x)
          · intro x hx
            exact absurd hx (List.not_mem_nil x)
          · rintro h
            exact absurd rfl h
          · exact Nat.zero_le m
          · rintro ⟨-, h⟩
            exact absurd rfl h
          · exact h0
          · intro _
            exact Or.inl rfl
          · show 0 + headRunW cw l ≤ m
            omega
          · rintro ⟨hno, -, -⟩
            exact absurd (Or.inl rfl) hno
          · show (s.wrapped ++
                [(s.pending_line ++ s.pending_whitespace) ++ s.pending_word]).flatMap
                  wordsOf ++ wordsOf ([] ++ [] ++ [] ++ l) =
                s.wrapped.flatMap wordsOf ++
                  wordsOf (s.pending_line ++ s.pending_whitespace ++
                    s.pending_word ++ (g :: l))
            have hsplit : wordsOf (s.pending_line ++ (s.pending_whitespace ++
                (s.pending_word ++ (g :: l)))) =
                wordsOf (s.pending_line ++ (s.pending_whitespace ++ s.pending_word))
                  ++ wordsOf l := by
              rw [show (s.pending_line ++ (s.pending_whitespace ++
                  (s.pending_word ++ (g :: l))) : List (StyledGrapheme σ)) =
                  (s.pending_line ++ (s.pending_whitespace ++ s.pending_word))
                    ++ [g] ++ l by simp]
              exact wordsOf_split_ws _ [g] l
                (by intro x hx; rw [List.mem_singleton] at hx; rw [hx]; exact hgws)
                (by simp)
            rw [List.flatMap_append]
            simp only [List.flatMap_cons, List.flatMap_nil, List.append_nil,
              List.nil_append, List.append_assoc]
            rw [hsplit]
        · rw [if_cond_false (Bool.eq_false_iff.mpr hem), wwAppend_ws]
          have hlt : (s.line_width + s.whitespace_width) + s.word_width < m := by
            by_contra hcon
            exact hem ((emitCond_iff cw m _ g).mpr (Or.inl
              (show m ≤ (s.line_width + s.whitespace_width) + s.word_width by omega)))
          refine ⟨⟨?_, ?_, ?_, ?_, ?_, ?_, ?_, ?_, ?_, ?_, ?_, ?_⟩, ?_⟩
          · show (s.line_width + s.whitespace_width) + s.word_width =
              sumWidth cw ((s.pending_line ++ s.pending_whitespace) ++ s.pending_word)
            rw [sumWidth_append, sumWidth_append, ha, hb, hc]
          · show (0 : Nat) = sumWidth cw ([] : List (StyledGrapheme σ))
            rfl
          · show 0 + gWidth cw g = sumWidth cw ([] ++ [g])
            rw [List.nil_append, sumWidth_singleton, Nat.zero_add]
          · intro x hx
            rw [List.nil_append, List.mem_singleton] at hx
            rw [hx]; exact hgws
          · intro x hx
            exact absurd hx (List.not_mem_nil x)
          · rintro h
            exact absurd rfl h
          · show sumWidth cw (dwRest cw ([] ++ [g])
              (m - ((s.line_width + s.whitespace_width) + s.word_width))).1 ≤ m
            rw [List.nil_append]
            exact Nat.le_trans (dwRest_singleton_le cw g _) hgww
          · rintro ⟨-, h⟩
            exact absurd rfl h
          · exact hlt
          · rintro ⟨h, -⟩
            rw [List.nil_append] at h
            cases h
          · show 0 + headRunW cw l ≤ m
            omega
          · rintro ⟨-, h, -⟩
            rw [List.nil_append] at h
            cases h
          · show s.wrapped.flatMap wordsOf ++
                wordsOf (((s.pending_line ++ s.pending_whitespace) ++ s.pending_word)
                  ++ ([] ++ [g]) ++ [] ++ l) =
                s.wrapped.flatMap wordsOf ++
                  wordsOf (s.pending_line ++ s.pending_whitespace ++
                    s.pending_word ++ (g :: l))
            congr 1
            simp only [List.nil_append, List.append_nil, List.append_assoc,
              List.singleton_append]
    · -- no flush at a whitespace grapheme: no word is open
      have hflF : wwFlushCond cw m true s g = false := Bool.eq_false_iff.mpr hfl
      have hpwE : s.pending_word = [] := by
        by_contra hne
        exact hfl ((flushCond_iff cw m s g).mpr (Or.inl ⟨hf hne, hgws⟩))
      have hww0 : s.word_width = 0 := by rw [hb, hpwE]; rfl
      rw [if_cond_false hflF]
      by_cases hem : wwEmitCond cw m s g = true
      · rw [if_cond_true hem]
        dsimp only
        have hw2 := dropWhitespace_width cw s.pending_whitespace (m - s.line_width)
        rw [← hc] at hw2
        have hfst := dwRest_fst cw s.pending_whitespace s.whitespace_width
          (m - s.line_width)
        have hw2le : sumWidth cw (dropWhitespace cw s.pending_whitespace
            s.whitespace_width (m - s.line_width)).1 ≤ m := by
          rw [hfst]; exact hg14
        have hd2 : ∀ x ∈ (dropWhitespace cw s.pending_whitespace
            s.whitespace_width (m - s.line_width)).1,
            is_whitespace_grapheme x = true := by
          obtain ⟨u, hu⟩ := dropWhitespace_suffix cw s.pending_whitespace
            s.whitespace_width (m - s.line_width)
          intro x hx
          exact hd x (by rw [hu]; exact List.mem_append_right u hx)
        have hpwsne : s.pending_whitespace ≠ [] := by
          intro hE
          rcases (emitCond_iff cw m s g).mp hem with h1 | ⟨-, h2⟩
          · omega
          · have hwsw0 : s.whitespace_width = 0 := by rw [hc, hE]; rfl
            omega
        have htot : (s.wrapped ++ [s.pending_line]).flatMap wordsOf ++ wordsOf l =
            s.wrapped.flatMap wordsOf ++
              wordsOf (s.pending_line ++ s.pending_whitespace ++
                s.pending_word ++ (g :: l)) := by
          have hsplit : wordsOf (s.pending_line ++
              (s.pending_whitespace ++ g :: l)) =
              wordsOf s.pending_line ++ wordsOf l := by
            rw [show (s.pending_line ++ (s.pending_whitespace ++ g :: l) :
                List (StyledGrapheme σ)) =
                s.pending_line ++ (s.pending_whitespace ++ [g]) ++ l by simp]
            exact wordsOf_split_ws s.pending_line (s.pending_whitespace ++ [g]) l
              (by
                intro x hx
                rcases List.mem_append.mp hx with hx' | hx'
                · exact hd x hx'
                · rw [List.mem_singleton] at hx'
                  rw [hx']; exact hgws)
              (by simp)
          rw [hpwE, List.flatMap_append]
          simp only [List.flatMap_cons, List.flatMap_nil, List.append_nil,
            List.nil_append, List.append_assoc]
          rw [hsplit]
        by_cases hpE : (wwEmitLine cw m s).pending_whitespace = []
        · rw [if_cond_true (by simp [hpE, hgws])]
          rw [wwEmitLine_eq] at hpE ⊢
          have hpE' : (dropWhitespace cw s.pending_whitespace
              s.whitespace_width (m - s.line_width)).1 = [] := hpE
          refine ⟨⟨?_, ?_, ?_, ?_, ?_, ?_, ?_, ?_, ?_, ?_, ?_, ?_⟩, ?_⟩
          · show (0 : Nat) = sumWidth cw ([] : List (StyledGrapheme σ))
            rfl
          · exact hb
          · exact hw2
          · exact hd2
          · exact he
          · intro hne
            exact absurd hpwE hne
          · show sumWidth cw (dwRest cw (dropWhitespace cw s.pending_whitespace
                s.whitespace_width (m - s.line_width)).1 (m - 0)).1 ≤ m
            rw [hpE']
            exact Nat.zero_le m
          · rintro ⟨-, hne⟩
            exact absurd hpwE hne
          · exact h0
          · intro _
            exact Or.inl rfl
          · show s.word_width + headRunW cw l ≤ m
            omega
          · rintro ⟨hno, -, -⟩
            exact absurd (Or.inl rfl) hno
          · show (s.wrapped ++ [s.pending_line]).flatMap wordsOf ++
                wordsOf ([] ++ (dropWhitespace cw s.pending_whitespace
                  s.whitespace_width (m - s.line_width)).1 ++
                  s.pending_word ++ l) =
                s.wrapped.flatMap wordsOf ++
                  wordsOf (s.pending_line ++ s.pending_whitespace ++
                    s.pending_word ++ (g :: l))
            rw [hpE', hpwE]
            rw [hpwE] at htot
            simpa using htot
        · rw [if_cond_false (by simp [hpE]), wwAppend_ws, wwEmitLine_eq]
          rw [wwEmitLine_eq] at hpE
          have hpE' : (dropWhitespace cw s.pending_whitespace
              s.whitespace_width (m - s.line_width)).1 ≠ [] := hpE
          refine ⟨⟨?_, ?_, ?_, ?_, ?_, ?_, ?_, ?_, ?_, ?_, ?_, ?_⟩, ?_⟩
          · show (0 : Nat) = sumWidth cw ([] : List (StyledGrapheme σ))
            rfl
          · exact hb
          · show (dropWhitespace cw s.pending_whitespace s.whitespace_width
                (m - s.line_width)).2 + gWidth cw g =
              sumWidth cw ((dropWhitespace cw s.pending_whitespace
                s.whitespace_width (m - s.line_width)).1 ++ [g])
            rw [sumWidth_append, sumWidth_singleton, hw2]
          · intro x hx
            rcases List.mem_append.mp hx with hx' | hx'
            · exact hd2 x hx'
            · rw [List.mem_singleton] at hx'
              rw [hx']; exact hgws
          · exact he
          · intro hne
            exact absurd hpwE hne
          · show sumWidth cw (dwRest cw ((dropWhitespace cw s.pending_whitespace
                s.whitespace_width (m - s.line_width)).1 ++ [g]) (m - 0)).1 ≤ m
            rw [Nat.sub_zero, dwRest_snoc,
              dwRest_all cw (dropWhitespace cw s.pending_whitespace
                s.whitespace_width (m - s.line_width)).1 m hw2le]
            split_ifs with h1 h2
            · show sumWidth cw [g] ≤ m
              rw [sumWidth_singleton]
              exact hgww
            · exact Nat.zero_le m
            · exact absurd rfl h1
          · rintro ⟨-, hne⟩
            exact absurd hpwE hne
          · exact h0
          · rintro ⟨hx, -⟩
            rcases List.append_eq_nil.mp hx with ⟨-, hx2⟩
            cases hx2
          · show s.word_width + headRunW cw l ≤ m
            omega
          · rintro ⟨-, hx, -⟩
            rcases List.append_eq_nil.mp hx with ⟨-, hx2⟩
            cases hx2
          · show (s.wrapped ++ [s.pending_line]).flatMap wordsOf ++
                wordsOf ([] ++ ((dropWhitespace cw s.pending_whitespace
                  s.whitespace_width (m - s.line_width)).1 ++ [g]) ++
                  s.pending_word ++ l) =
                s.wrapped.flatMap wordsOf ++
                  wordsOf (s.pending_line ++ s.pending_whitespace ++
                    s.pending_word ++ (g :: l))
            rw [hpwE]
            rw [show ([] ++ ((dropWhitespace cw s.pending_whitespace
                s.whitespace_width (m - s.line_width)).1 ++ [g]) ++ [] ++ l :
                List (StyledGrapheme σ)) =
              ((dropWhitespace cw s.pending_whitespace
                s.whitespace_width (m - s.line_width)).1 ++ [g]) ++ l by simp]
            rw [List.append_assoc, wordsOf_ws_append _ ([g] ++ l) hd2,
              List.singleton_append, wordsOf_cons_ws g l hgws]
            rw [hpwE] at htot
            simpa using htot
      · -- no flush, no emission: the whitespace run grows
        rw [if_cond_false (Bool.eq_false_iff.mpr hem), wwAppend_ws]
        refine ⟨⟨?_, ?_, ?_, ?_, ?_, ?_, ?_, ?_, ?_, ?_, ?_, ?_⟩, ?_⟩
        · exact ha
        · exact hb
        · show s.whitespace_width + gWidth cw g =
            sumWidth cw (s.pending_whitespace ++ [g])
          rw [sumWidth_append, sumWidth_singleton, hc]
        · intro x hx
          rcases List.mem_append.mp hx with hx' | hx'
          · exact hd x hx'
          · rw [List.mem_singleton] at hx'
            rw [hx']; exact hgws
        · exact he
        · intro hne
          exact absurd hpwE hne
        · show sumWidth cw (dwRest cw (s.pending_whitespace ++ [g])
              (m - s.line_width)).1 ≤ m
          rw [dwRest_snoc]
          by_cases hstuck : (dwRest cw s.pending_whitespace
              (m - s.line_width)).1.isEmpty = true
          · rw [if_pos hstuck]
            by_cases hw : gWidth cw g >
                (dwRest cw s.pending_whitespace (m - s.line_width)).2
            · rw [if_pos hw]
              show sumWidth cw [g] ≤ m
              rw [sumWidth_singleton]
              exact hgww
            · rw [if_neg hw]
              exact Nat.zero_le m
          · rw [if_neg hstuck]
            have hne : (dwRest cw s.pending_whitespace (m - s.line_width)).1 ≠ [] := by
              simpa using hstuck
            have hgt := dwRest_gt cw s.pending_whitespace (m - s.line_width) hne
            have hsw0 : gWidth cw g = 0 := by
              by_contra hne0
              apply hem
              apply (emitCond_iff cw m s g).mpr
              right
              refine ⟨by omega, ?_⟩
              rw [hc]
              omega
            rw [sumWidth_append, sumWidth_singleton, hsw0]
            omega
        · rintro ⟨-, hne⟩
          exact absurd hpwE hne
        · exact hh
        · rintro ⟨hx, -⟩
          rcases List.append_eq_nil.mp hx with ⟨-, hx2⟩
          cases hx2
        · show s.word_width + headRunW cw l ≤ m
          omega
        · rintro ⟨-, hx, -⟩
          rcases List.append_eq_nil.mp hx with ⟨-, hx2⟩
          cases hx2
        · show s.wrapped.flatMap wordsOf ++
              wordsOf (s.pending_line ++ (s.pending_whitespace ++ [g]) ++
                s.pending_word ++ l) =
              s.wrapped.flatMap wordsOf ++
                wordsOf (s.pending_line ++ s.pending_whitespace ++
                  s.pending_word ++ (g :: l))
          rw [hpwE]
          congr 1
          simp only [List.append_nil, List.append_assoc, List.singleton_append]

/-- Scanning a whole logical line with `trim` enabled preserves the
word-integrity invariant and the total word ledger. -/
theorem foldl_words (cw : Char → Nat) (m : Nat) (h0 : 0 < m) :
    ∀ (l : List (StyledGrapheme σ)) (s : WWState σ),
      C2Inv cw m s l →
      (∀ w ∈ wordsOf l, sumWidth cw w ≤ m) →
      (∀ x ∈ l, is_whitespace_grapheme x = true → gWidth cw x ≤ m) →
      C2Inv cw m (l.foldl (wwStep cw m true) s) [] ∧
        wordsTotal (l.foldl (wwStep cw m true) s) [] = wordsTotal s l
  | [], _, hinv, _, _ => ⟨hinv, rfl⟩
  | g :: l, s, hinv, hF, hws => by
    rw [List.foldl_cons]
    obtain ⟨hinv', htot'⟩ := wwStep_words cw m h0 s g l hinv hF hws
    obtain ⟨hinv2, htot2⟩ := foldl_words cw m h0 l (wwStep cw m true s g) hinv'
      (wordsOf_fits_tail cw m g l hF)
      (fun x hx hxw => hws x (List.mem_cons_of_mem g hx) hxw)
    exact ⟨hinv2, htot2.trans htot'⟩

/-- The words of the lines the epilogue of `process_input` emits: every line
wrapped so far, then what remains of the line under construction. -/
theorem wwFinalize_flatMap (s : WWState σ) :
    (wwFinalize true s).flatMap wordsOf =
      s.wrapped.flatMap wordsOf ++
        wordsOf ((if (!s.pending_line.isEmpty || !true) = true then
          s.pending_line ++ s.pending_whitespace
        else s.pending_line) ++ s.pending_word) := by
  rw [wwFinalize]
  split_ifs <;> simp_all [List.flatMap_append, wordsOf_nil]

/-- The epilogue of `process_input` delivers exactly the words still held by
the scan state. -/
theorem wwFinalize_words (s : WWState σ)
    (hdws : ∀ g ∈ s.pending_whitespace, is_whitespace_grapheme g = true) :
    (wwFinalize true s).flatMap wordsOf = wordsTotal s [] := by
  rw [wwFinalize_flatMap, wordsTotal]
  congr 1
  by_cases hpl : s.pending_line = []
  · rw [if_neg (by simp [hpl]), hpl]
    simp only [List.nil_append, List.append_nil]
    exact (wordsOf_ws_append s.pending_whitespace s.pending_word hdws).symm
  · rw [if_pos (by
      cases hp : s.pending_line with
      | nil => exact absurd hp hpl
      | cons a as => rfl)]
    simp [List.append_assoc]

/-! ## Theorems -/

/-- C1: the claim states that every `WrappedLine` emitted for `max_width > 0`
has total width at most `max_width` (wider-than-limit single graphemes being
dropped).  The code violates this: on the single word `"aaaa漢"` (grapheme
widths 1,1,1,1,2, every one of them ≤ 5) with `max_width = 5` and trim, the
word-overflow flush leaves a line of width 4 and the trailing width-2
grapheme is then appended to that same line by the end-of-input epilogue,
emitting one line of width 6 > 5. -/
theorem C1_wrapped_line_exceeds_max_width :
    ∃ wl ∈ wordWrapAll cwStd 5 true [(overflowDemoLine, Alignment.left)],
      5 < wl.width ∧ ∀ g ∈ wl.line, gWidth cwStd g ≤ 5 := by
  decide

/-- C2 counterexample: with trim disabled, the word `"aaaaa"` of width
5 = `max_width` in the line `" aaaaa"` is split by the code: the
untrimmed-overflow flush puts the leading space plus `"aaaa"` on a full first
line and the final `"a"` lands on a second line, although the word's own
width does not exceed `max_width`.  Graphemes of one word (tagged by style)
thus appear in two different emitted lines, refuting the claim as stated. -/
theorem C2_counterexample :
    (∀ w ∈ wordsOf splitDemoLine, sumWidth cwStd w ≤ 5) ∧
      wordsOf splitDemoLine = [[⟨"a", 0⟩, ⟨"a", 1⟩, ⟨"a", 2⟩, ⟨"a", 3⟩, ⟨"a", 5⟩]] ∧
      process_input cwStd 5 false splitDemoLine =
        [[⟨" ", 9⟩, ⟨"a", 0⟩, ⟨"a", 1⟩, ⟨"a", 2⟩, ⟨"a", 3⟩], [⟨"a", 5⟩]] := by
  decide

/-- C2 (amended): with trim enabled, a positive width limit, every word of
the logical line no wider than the limit and every whitespace grapheme no
wider than the limit, the words of the emitted lines, concatenated in
emission order, are exactly the words of the input line — so no word is ever
split across two physical lines and no word is dropped or reordered. -/
theorem C2_word_integrity (cw : Char → Nat) (max_line_width : Nat)
    (l : List (StyledGrapheme σ)) (h0 : 0 < max_line_width)
    (hwords : ∀ w ∈ wordsOf l, sumWidth cw w ≤ max_line_width)
    (hws : ∀ x ∈ l, is_whitespace_grapheme x = true →
      gWidth cw x ≤ max_line_width) :
    (process_input cw max_line_width true l).flatMap wordsOf = wordsOf l := by
  have hinit : C2Inv cw max_line_width (initState : WWState σ) l := by
    refine ⟨rfl, rfl, rfl, ?_, ?_, ?_, ?_, ?_, ?_, ?_, ?_, ?_⟩
    · intro x hx; exact absurd hx (List.not_mem_nil x)
    · intro x hx; exact absurd hx (List.not_mem_nil x)
    · intro h; exact absurd rfl h
    · exact Nat.zero_le _
    · rintro ⟨-, h⟩; exact absurd rfl h
    · exact h0
    · intro _; exact Or.inl rfl
    · show 0 + headRunW cw l ≤ max_line_width
      have := headRunW_le_of_fits cw max_line_width l hwords
      omega
    · rintro ⟨hno, -, -⟩; exact absurd (Or.inl rfl) hno
  obtain ⟨hinv, htot⟩ := foldl_words cw max_line_width h0 l initState hinit
    hwords hws
  rw [process_input, wwFinalize_words _ hinv.2.2.2.1, htot]
  simp [wordsTotal, initState]

/-- C2 witness: the amended statement applied to the line `" aaaaa"` (whose
single word has width 5 = the limit) with trim enabled: the one word comes
out whole. -/
theorem C2_witness :
    (0 < 5 ∧ (∀ w ∈ wordsOf splitDemoLine, sumWidth cwStd w ≤ 5) ∧
      (∀ x ∈ splitDemoLine, is_whitespace_grapheme x = true →
        gWidth cwStd x ≤ 5)) ∧
    (process_input cwStd 5 true splitDemoLine).flatMap wordsOf =
      wordsOf splitDemoLine :=
  ⟨⟨by decide, by decide, by decide⟩,
    C2_word_integrity cwStd 5 splitDemoLine (by decide) (by decide) (by decide)⟩

/-- C3 counterexample: with trim disabled and `max_width = 5 > 0`, the
all-whitespace logical line `[" "]` produces TWO physical lines (an empty
line pushed by the all-whitespace epilogue check, then the whitespace-only
line), not exactly one as claimed. -/
theorem C3_counterexample :
    (∀ g ∈ [(⟨" ", 0⟩ : StyledGrapheme Nat)], is_whitespace_grapheme g = true) ∧
      process_input cwStd 5 false [(⟨" ", 0⟩ : StyledGrapheme Nat)] =
        [[], [⟨" ", 0⟩]] := by
  decide

/-- C4 counterexample: truncating the left-aligned line `[a, b]` (widths 1,1,
`max_width = 10`) with `horizontal_offset = 1` emits the graphemes
`[⟨"", a.style⟩, b]` — the offset-consumed grapheme is kept as an
empty-content placeholder — whereas removing 1 column first and truncating
with offset 0 emits just `[b]`; the emitted grapheme sequences differ, so the
two runs are not equal as the claim states (`1 ≤` line width `= 2`). -/
theorem C4_counterexample :
    1 ≤ sumWidth cwStd [(⟨"a", 0⟩ : StyledGrapheme Nat), ⟨"b", 1⟩] ∧
      truncRun cwStd charSeg 10 1 [([⟨"a", 0⟩, ⟨"b", 1⟩], Alignment.left)] ≠
        truncRun cwStd charSeg 10 0
          [(specRemoveColumns cwStd charSeg [(⟨"a", 0⟩ : StyledGrapheme Nat), ⟨"b", 1⟩] 1,
            Alignment.left)] := by
  decide

/-- C6 counterexample: with `max_width = 1`, the non-whitespace grapheme
`"漢"` of width 2 is dropped entirely by the wider-than-limit skip, so the
emitted graphemes cannot reconstruct the original line by reinserting
whitespace: the claim fails as stated for inputs containing a grapheme wider
than `max_width`. -/
theorem C6_counterexample :
    process_input cwStd 1 true [(⟨"漢", 0⟩ : StyledGrapheme Nat), ⟨"a", 1⟩] = [[⟨"a", 1⟩]] ∧
      ¬ WsErase [(⟨"漢", 0⟩ : StyledGrapheme Nat), ⟨"a", 1⟩] [⟨"a", 1⟩] := by
  refine ⟨by decide, fun h => ?_⟩
  obtain ⟨m', hm, -⟩ := h.keep_head (by decide)
  injection hm with h1 h2
  exact absurd (congrArg StyledGrapheme.symbol h1) (by decide)

/-- Lifting the per-line erasure across the whole run. -/
theorem flatMap_wsErase (cw : Char → Nat) (max_line_width : Nat) (trim : Bool)
    (inputs : List (List (StyledGrapheme σ) × Alignment))
    (hfit : ∀ p ∈ inputs, ∀ g ∈ p.1, gWidth cw g ≤ max_line_width) :
    WsErase (inputs.map Prod.fst).flatten
      (((inputs.flatMap fun p =>
        (process_input cw max_line_width trim p.1).map fun l =>
          (⟨l, sumWidth cw l, p.2⟩ : WrappedLine σ)).map
            WrappedLine.line).flatten) := by
  induction inputs with
  | nil => exact .nil
  | cons p rest ih =>
    have hline : ∀ X : List (List (StyledGrapheme σ)),
        (X.map fun l => (⟨l, sumWidth cw l, p.2⟩ : WrappedLine σ)).map
          WrappedLine.line = X := by
      intro X
      induction X with
      | nil => rfl
      | cons x xs ihX => simp only [List.map_cons, ihX]
    have h1 := process_input_wsErase cw max_line_width trim p.1
      (hfit p (by simp))
    have h2 := ih fun q hq => hfit q (by simp [hq])
    have h3 := h1.append h2
    simpa [hline] using h3

/-- C5: the word-wrap engine classifies a grapheme as whitespace iff its
content equals the zero-width-space marker, or its content consists entirely
of Unicode whitespace chars and is not the non-breaking-space content; in
particular NBSP is never whitespace and ZWSP always is. -/
theorem C5_whitespace_classification (σ : Type) (st : σ) (g : StyledGrapheme σ) :
    (is_whitespace_grapheme g = true ↔
      (g.symbol = ZWSP ∨
        ((∀ c ∈ g.symbol.data, rustCharWhitespace c = true) ∧ g.symbol ≠ NBSP))) ∧
    is_whitespace_grapheme (⟨NBSP, st⟩ : StyledGrapheme σ) = false ∧
    is_whitespace_grapheme (⟨ZWSP, st⟩ : StyledGrapheme σ) = true := by
  refine ⟨?_, ?_, ?_⟩
  · simp [is_whitespace_grapheme, List.all_eq_true]
  · simp only [is_whitespace_grapheme]
    decide
  · simp only [is_whitespace_grapheme]
    decide

/-- C8: with `max_width = 0`, both engines' `next_line` returns `None`
immediately on every call, so no physical lines at all are emitted,
regardless of the input. -/
theorem C8_zero_max_width_emits_nothing (σ : Type) (cw : Char → Nat)
    (seg : String → List String) (trim : Bool) (off : Nat)
    (inputs : List (List (StyledGrapheme σ) × Alignment)) :
    wordWrapAll cw 0 trim inputs = [] ∧ truncRun cw seg 0 off inputs = [] := by
  constructor
  · simp [wordWrapAll]
  · cases inputs <;> simp [truncRun]

/-- C10 counterexample: with `max_width = 1` and `horizontal_offset = 2`, the
left-aligned line `[⟨"xy"⟩ (width 2), ⟨"a"⟩]` is truncated to the single
placeholder `⟨"", style a⟩`: the first grapheme, although its width 2 is
entirely within the 2 skipped columns, is dropped by the wider-than-limit
skip before the offset logic runs and never appears as an empty-content
grapheme, refuting the claim as stated. -/
theorem C10_counterexample :
    widthUpTo cwStd [(⟨"xy", 0⟩ : StyledGrapheme Nat), ⟨"a", 1⟩] 1 ≤ 2 ∧
      (truncOne cwStd charSeg 1 2 ([⟨"xy", 0⟩, ⟨"a", 1⟩], Alignment.left)).line =
        [⟨"", 1⟩] ∧
      (⟨"", 0⟩ : StyledGrapheme Nat) ∉
        (truncOne cwStd charSeg 1 2 ([⟨"xy", 0⟩, ⟨"a", 1⟩], Alignment.left)).line := by
  decide

/-- C7: for `max_width > 0` the truncation engine consumes exactly one
logical line per `next_line` call and emits exactly one physical line for it
(so at most one per logical line, each logical line's remainder beyond the
limit being dropped rather than carried to a later line), and every emitted
line has width at most `max_width`. -/
theorem C7_truncator_one_line_per_input (σ : Type) (cw : Char → Nat)
    (seg : String → List String) (max_line_width off : Nat)
    (inputs : List (List (StyledGrapheme σ) × Alignment))
    (h : 0 < max_line_width) :
    truncRun cw seg max_line_width off inputs =
      inputs.map (truncOne cw seg max_line_width off) ∧
    (truncRun cw seg max_line_width off inputs).length = inputs.length ∧
    ∀ wl ∈ truncRun cw seg max_line_width off inputs, wl.width ≤ max_line_width := by
  have hmap : truncRun cw seg max_line_width off inputs =
      inputs.map (truncOne cw seg max_line_width off) := by
    induction inputs with
    | nil => simp [truncRun]
    | cons p rest ih => simp [truncRun, Nat.pos_iff_ne_zero.mp h, ih]
  refine ⟨hmap, by rw [hmap]; simp, ?_⟩
  rw [hmap]
  intro wl hwl
  rw [List.mem_map] at hwl
  obtain ⟨p, hp, rfl⟩ := hwl
  exact truncLoop_width_le cw seg max_line_width _ p.1 off 0 (by omega)

/-- C7 witness: a concrete run with `max_width = 2` on a width-3 line. -/
theorem C7_witness :
    0 < 2 ∧
      ∀ wl ∈ truncRun cwStd charSeg 2 0
        [([⟨"a", 0⟩, ⟨"b", 1⟩, ⟨"c", 2⟩], Alignment.left)], wl.width ≤ 2 :=
  ⟨by decide,
    (C7_truncator_one_line_per_input Nat cwStd charSeg 2 0
      [([⟨"a", 0⟩, ⟨"b", 1⟩, ⟨"c", 2⟩], Alignment.left)] (by decide)).2.2⟩

/-- C9: for `max_width > 0`, every physical line either engine emits for a
logical line carries exactly that logical line's alignment: the word-wrap run
is the concatenation, logical line by logical line, of that line's wrapped
lines tagged with its own alignment, and the truncation run maps each logical
line to one physical line with the same alignment. -/
theorem C9_alignment_flows_verbatim (σ : Type) (cw : Char → Nat)
    (seg : String → List String) (max_line_width : Nat) (trim : Bool) (off : Nat)
    (inputs : List (List (StyledGrapheme σ) × Alignment))
    (h : 0 < max_line_width) :
    wordWrapAll cw max_line_width trim inputs =
      (inputs.flatMap fun p =>
        (process_input cw max_line_width trim p.1).map fun l =>
          ⟨l, sumWidth cw l, p.2⟩) ∧
    (truncRun cw seg max_line_width off inputs).map WrappedLine.alignment =
      inputs.map Prod.snd := by
  constructor
  · rw [wordWrapAll, if_neg (by omega)]
    exact drainLines_flatMap cw max_line_width trim inputs Alignment.left
  · induction inputs with
    | nil => simp [truncRun]
    | cons p rest ih =>
      simp [truncRun, Nat.pos_iff_ne_zero.mp h, ih, truncOne]

/-- C9 witness: a concrete run with one center- and one right-aligned line. -/
theorem C9_witness :
    wordWrapAll cwStd 3 true
        [([⟨"a", 0⟩], Alignment.center), ([⟨"b", 1⟩], Alignment.right)] =
      ([([⟨"a", 0⟩], Alignment.center), ([⟨"b", 1⟩], Alignment.right)].flatMap fun p =>
        (process_input cwStd 3 true p.1).map fun l => ⟨l, sumWidth cwStd l, p.2⟩) ∧
    (truncRun cwStd charSeg 3 0
        [([⟨"a", 0⟩], Alignment.center), ([⟨"b", 1⟩], Alignment.right)]).map
      WrappedLine.alignment =
      [([(⟨"a", 0⟩ : StyledGrapheme Nat)], Alignment.center),
        ([⟨"b", 1⟩], Alignment.right)].map Prod.snd :=
  C9_alignment_flows_verbatim Nat cwStd charSeg 3 true 0
    [([⟨"a", 0⟩], Alignment.center), ([⟨"b", 1⟩], Alignment.right)] (by decide)

/-- An all-whitespace line keeps `wsOnlyInv` through the whole scan. -/
theorem foldl_ws_only (cw : Char → Nat) (max_line_width : Nat)
    (h0 : 0 < max_line_width) :
    ∀ (l : List (StyledGrapheme σ)) (s : WWState σ), wsOnlyInv max_line_width s →
      (∀ g ∈ l, is_whitespace_grapheme g = true) →
      wsOnlyInv max_line_width (l.foldl (wwStep cw max_line_width true) s) := by
  intro l
  induction l with
  | nil => intro s hs _; simpa using hs
  | cons g rest ih =>
    intro s hs hws
    rw [List.foldl_cons]
    exact ih _ (wwStep_ws_only cw max_line_width h0 s g (hws g (by simp)) hs)
      fun h hm => hws h (by simp [hm])

/-- C3 (amended): with trim enabled and `max_width > 0`, a logical line
consisting entirely of whitespace graphemes makes the word-wrap engine emit
exactly one physical line for it, the empty line — never zero lines and never
more than one.  (With trim disabled the code emits an extra empty line ahead
of the whitespace-only line, see the counterexample.) -/
theorem C3_whitespace_line_single_line (σ : Type) (cw : Char → Nat)
    (max_line_width : Nat) (l : List (StyledGrapheme σ))
    (hws : ∀ g ∈ l, is_whitespace_grapheme g = true) (h0 : 0 < max_line_width) :
    process_input cw max_line_width true l = [[]] := by
  have hinv := foldl_ws_only cw max_line_width h0 l initState
    ⟨rfl, rfl, rfl, rfl, rfl, rfl, Nat.zero_le _⟩ hws
  obtain ⟨h1, h2, h3, h4, h5, h6, h7⟩ := hinv
  rw [process_input, wwFinalize]
  by_cases hpws :
      (List.foldl (wwStep cw max_line_width true) initState l).pending_whitespace = [] <;>
    simp [h1, h3, h5, hpws]

/-- C3 witness: the single space, `max_width = 5`, trim enabled. -/
theorem C3_witness :
    (∀ g ∈ [(⟨" ", 0⟩ : StyledGrapheme Nat)], is_whitespace_grapheme g = true) ∧
      0 < 5 ∧
      process_input cwStd 5 true [(⟨" ", 0⟩ : StyledGrapheme Nat)] = [[]] :=
  ⟨by decide, by decide,
    C3_whitespace_line_single_line Nat cwStd 5 [⟨" ", 0⟩] (by decide) (by decide)⟩

/-- C4 (amended): on a left-aligned line none of whose graphemes is wider
than `max_width`, truncating with `horizontal_offset = O ≤` line width yields
the same emitted width as removing the leading `O` columns first and
truncating with offset 0, and the same emitted graphemes once the
empty-content zero-width placeholders left for offset-consumed graphemes are
discarded.  (As stated — same graphemes on the nose — the claim fails, see
the counterexample.) -/
theorem C4_offset_equivalence (σ : Type) (cw : Char → Nat)
    (seg : String → List String) (max_line_width O : Nat)
    (line : List (StyledGrapheme σ))
    (hfit : ∀ g ∈ line, gWidth cw g ≤ max_line_width)
    (_hO : O ≤ sumWidth cw line) :
    (truncOne cw seg max_line_width O (line, Alignment.left)).width =
      (truncOne cw seg max_line_width 0
        (specRemoveColumns cw seg line O, Alignment.left)).width ∧
    dropEmpties (truncOne cw seg max_line_width O (line, Alignment.left)).line =
      dropEmpties (truncOne cw seg max_line_width 0
        (specRemoveColumns cw seg line O, Alignment.left)).line := by
  have h := truncLoop_offset_equiv cw seg max_line_width line hfit O
  simpa [truncOne] using h

/-- C4 witness: `[a, b, c]` (widths 1,1,1), `max_width = 2`, offset 1. -/
theorem C4_witness :
    (∀ g ∈ [(⟨"a", 0⟩ : StyledGrapheme Nat), ⟨"b", 1⟩, ⟨"c", 2⟩],
        gWidth cwStd g ≤ 2) ∧
      1 ≤ sumWidth cwStd [(⟨"a", 0⟩ : StyledGrapheme Nat), ⟨"b", 1⟩, ⟨"c", 2⟩] ∧
      ((truncOne cwStd charSeg 2 1
          ([⟨"a", 0⟩, ⟨"b", 1⟩, ⟨"c", 2⟩], Alignment.left)).width =
        (truncOne cwStd charSeg 2 0
          (specRemoveColumns cwStd charSeg [⟨"a", 0⟩, ⟨"b", 1⟩, ⟨"c", 2⟩] 1,
            Alignment.left)).width ∧
      dropEmpties (truncOne cwStd charSeg 2 1
          ([⟨"a", 0⟩, ⟨"b", 1⟩, ⟨"c", 2⟩], Alignment.left)).line =
        dropEmpties (truncOne cwStd charSeg 2 0
          (specRemoveColumns cwStd charSeg [⟨"a", 0⟩, ⟨"b", 1⟩, ⟨"c", 2⟩] 1,
            Alignment.left)).line) :=
  ⟨by decide, by decide,
    C4_offset_equivalence Nat cwStd charSeg 2 1 [⟨"a", 0⟩, ⟨"b", 1⟩, ⟨"c", 2⟩]
      (by decide) (by decide)⟩

/-- C10 (amended): on a left-aligned line none of whose graphemes is wider
than `max_width`, every grapheme reached with positive remaining offset and
whose display width is entirely consumed by it (total width up to and
including it at most the offset, strictly below it before it) still appears
in the emitted line, at its own position, as a grapheme with empty content
(hence zero width) carrying its original style.  (Without the width bound a
wider-than-limit grapheme is skipped outright and omitted, see the
counterexample.) -/
theorem C10_consumed_grapheme_kept_as_placeholder (σ : Type) (cw : Char → Nat)
    (seg : String → List String) (max_line_width O : Nat)
    (line : List (StyledGrapheme σ))
    (hfit : ∀ g ∈ line, gWidth cw g ≤ max_line_width)
    (i : Nat) (hi : i < line.length)
    (hlt : widthUpTo cw line i < O) (hle : widthUpTo cw line (i + 1) ≤ O) :
    (truncOne cw seg max_line_width O (line, Alignment.left)).line.get? i =
      some ⟨"", (line.get ⟨i, hi⟩).style⟩ := by
  have h := truncLoop_offset_placeholder cw seg max_line_width line hfit i O hi
    hlt hle
  simpa [truncOne] using h

/-- C10 witness: line `[a, b]` (widths 1,1), `max_width = 1`, offset 2,
index 1. -/
theorem C10_witness :
    (∀ g ∈ [(⟨"a", 0⟩ : StyledGrapheme Nat), ⟨"b", 1⟩], gWidth cwStd g ≤ 1) ∧
      widthUpTo cwStd [(⟨"a", 0⟩ : StyledGrapheme Nat), ⟨"b", 1⟩] 1 < 2 ∧
      widthUpTo cwStd [(⟨"a", 0⟩ : StyledGrapheme Nat), ⟨"b", 1⟩] 2 ≤ 2 ∧
      (truncOne cwStd charSeg 1 2
          ([⟨"a", 0⟩, ⟨"b", 1⟩], Alignment.left)).line.get? 1 =
        some ⟨"", ([(⟨"a", 0⟩ : StyledGrapheme Nat), ⟨"b", 1⟩].get ⟨1, by decide⟩).style⟩ :=
  ⟨by decide, by decide, by decide,
    C10_consumed_grapheme_kept_as_placeholder Nat cwStd charSeg 1 2
      [⟨"a", 0⟩, ⟨"b", 1⟩] (by decide) 1 (by decide) (by decide) (by decide)⟩

/-- C6 (amended): for `max_width > 0` and inputs in which no grapheme is
wider than `max_width`, concatenating the graphemes of all emitted
WrappedLines in emission order yields the original logical lines' graphemes,
in their original order and each with content and style unmodified, up to
removal of some whitespace-classified graphemes (those dropped at line
breaks per the trim mode) — so reinserting the dropped whitespace
reconstructs the original text.  (A non-whitespace grapheme wider than
`max_width` is dropped outright, so the claim fails without the hypothesis,
see the counterexample.) -/
theorem C6_reconstruction (σ : Type) (cw : Char → Nat) (max_line_width : Nat)
    (trim : Bool) (inputs : List (List (StyledGrapheme σ) × Alignment))
    (h0 : 0 < max_line_width)
    (hfit : ∀ p ∈ inputs, ∀ g ∈ p.1, gWidth cw g ≤ max_line_width) :
    WsErase (inputs.map Prod.fst).flatten
      (((wordWrapAll cw max_line_width trim inputs).map WrappedLine.line).flatten) := by
  rw [wordWrapAll, if_neg (by omega), drainLines_flatMap]
  exact flatMap_wsErase cw max_line_width trim inputs hfit

/-- C6 witness: `"a b"` wrapped at width 1 with trim drops the space; the
erased reconstruction relates the input to the two emitted lines. -/
theorem C6_witness :
    0 < 1 ∧
      (∀ p ∈ [([(⟨"a", 0⟩ : StyledGrapheme Nat), ⟨" ", 1⟩, ⟨"b", 2⟩],
          Alignment.left)], ∀ g ∈ p.1, gWidth cwStd g ≤ 1) ∧
      WsErase ([([(⟨"a", 0⟩ : StyledGrapheme Nat), ⟨" ", 1⟩, ⟨"b", 2⟩],
          Alignment.left)].map Prod.fst).flatten
        (((wordWrapAll cwStd 1 true
          [([(⟨"a", 0⟩ : StyledGrapheme Nat), ⟨" ", 1⟩, ⟨"b", 2⟩],
            Alignment.left)]).map WrappedLine.line).flatten) :=
  ⟨by decide, by decide,
    C6_reconstruction Nat cwStd 1 true
      [([⟨"a", 0⟩, ⟨" ", 1⟩, ⟨"b", 2⟩], Alignment.left)] (by decide) (by decide)⟩

end Wrap
